import Mathlib

/-!
Verification of the soniakeys graph library core against its specification.

The development shallowly embeds the library's data model and algorithms:

* node ids (`NI`, Go `int32`) become `Nat` where they are used as slice
  indices and `Int` where sentinel values such as `-1` occur; none of the
  verified claims involve 32-bit overflow;
* adjacency lists become `List (List Nat)` (plain) and `List (List Half)`
  (labeled); Go slice indexing `g[n]` becomes `List.getD` (in-bounds
  hypotheses are stated where a claim needs them);
* the visited bitset (`graph.Bits`, a `big.Int` used as a set of node ids)
  becomes a duplicate-free `List Nat` recording marks in discovery order;
* Go recursion without a structural termination argument is rendered with an
  explicit fuel parameter; sufficiency of the chosen fuel is proved, so the
  fueled functions coincide with the ideal unbounded recursion;
* `float64` edge weights become `Int`: every weight appearing in the claims
  is a small integer, on which `float64` arithmetic is exact.
-/

/-! ## Stable sort

The ascending stable sort used by Kruskal (and the comparison sort used by
`HasParallelSort`), rendered as insertion sort, which is stable: an element
is inserted before the first element it is `le`-below, so elements that
compare equal keep their original relative order. -/

def insertLe {α : Type} (le : α → α → Bool) (a : α) : List α → List α
  | [] => [a]
  | b :: t => if le a b then a :: b :: t else b :: insertLe le a t

def stableSort {α : Type} (le : α → α → Bool) : List α → List α
  | [] => []
  | a :: t => insertLe le a (stableSort le t)

theorem insertLe_perm {α : Type} (le : α → α → Bool) (a : α) (l : List α) :
    List.Perm (insertLe le a l) (a :: l) := by
  induction l with
  | nil => exact List.Perm.refl _
  | cons b t ih =>
    simp only [insertLe]
    split
    · exact List.Perm.refl _
    · exact (ih.cons b).trans (List.Perm.swap a b t)

theorem stableSort_perm {α : Type} (le : α → α → Bool) (l : List α) :
    List.Perm (stableSort le l) l := by
  induction l with
  | nil => exact List.Perm.refl _
  | cons a t ih =>
    exact (insertLe_perm le a (stableSort le t)).trans (ih.cons a)

theorem insertLe_pairwise {α : Type} (le : α → α → Bool)
    (htot : ∀ x y, le x y = true ∨ le y x = true)
    (htrans : ∀ x y z, le x y = true → le y z = true → le x z = true)
    (a : α) (l : List α) (h : l.Pairwise (fun x y => le x y = true)) :
    (insertLe le a l).Pairwise (fun x y => le x y = true) := by
  induction l with
  | nil => simp [insertLe]
  | cons b t ih =>
    simp only [insertLe]
    rcases List.pairwise_cons.mp h with ⟨hbt, ht⟩
    split
    · rename_i hab
      refine List.pairwise_cons.mpr ⟨?_, h⟩
      intro x hx
      rcases List.mem_cons.mp hx with rfl | hx
      · exact hab
      · exact htrans a b x hab (hbt x hx)
    · rename_i hab
      have hba : le b a = true := by
        rcases htot a b with h1 | h1
        · exact absurd h1 hab
        · exact h1
      refine List.pairwise_cons.mpr ⟨?_, ih ht⟩
      intro x hx
      have := (insertLe_perm le a t).mem_iff.mp hx
      rcases List.mem_cons.mp this with rfl | hx2
      · exact hba
      · exact hbt x hx2

theorem stableSort_pairwise {α : Type} (le : α → α → Bool)
    (htot : ∀ x y, le x y = true ∨ le y x = true)
    (htrans : ∀ x y z, le x y = true → le y z = true → le x z = true)
    (l : List α) :
    (stableSort le l).Pairwise (fun x y => le x y = true) := by
  induction l with
  | nil => exact List.Pairwise.nil
  | cons a t ih => exact insertLe_pairwise le htot htrans a _ ih

/-! ## Minimum spanning forest: Kruskal

The Kruskal implementation itself is not among the given source files (only
its example tests are), so it is modelled from the specification, section
4.4. -/

/-- A half-arc of a labeled adjacency list: target node and arc label
(`graph.Half`). -/
structure Half where
  To : Nat
  Label : Int
deriving DecidableEq, Repr

/-- A labeled undirected edge: the unordered pair `{n1, n2}` with a label
(`graph.LabeledEdge`). -/
structure LabeledEdge where
  n1 : Nat
  n2 : Nat
  label : Int
deriving DecidableEq, Repr

/-- `graph.WeightedEdgeList`: node count, weight function from labels, and
the edge sequence.  Weights are `Int` (see the header note on `float64`). -/
structure WeightedEdgeList where
  order : Nat
  weightFunc : Int → Int
  edges : List LabeledEdge

/-- Modelled from the spec: Kruskal maintains "a disjoint-set forest over
node ids (union by rank, path compression)".  `parent` and `rank` are
parallel arrays indexed by node id. -/
structure UnionFind where
  parent : List Nat
  rank : List Nat
deriving DecidableEq, Repr

def ufInit (n : Nat) : UnionFind :=
  ⟨List.range n, List.replicate n 0⟩

/-- Find with path compression: returns the root of `x` and the parent
array with every node on the path from `x` repointed at the root.  The fuel
bounds the parent-chain length; `ufFind` supplies the array length, which
always suffices. -/
def ufFindAux (p : List Nat) : Nat → Nat → Nat × List Nat
  | 0, x => (x, p)
  | fuel+1, x =>
    let px := p.getD x x
    if px = x then (x, p)
    else
      let r := ufFindAux p fuel px
      (r.1, r.2.set x r.1)

def ufFind (u : UnionFind) (x : Nat) : Nat × UnionFind :=
  let r := ufFindAux u.parent u.parent.length x
  (r.1, ⟨r.2, u.rank⟩)

/-- Union by rank of two roots: the root of smaller rank is pointed at the
other; on equal ranks the second root is pointed at the first, whose rank
increments. -/
def ufUnion (u : UnionFind) (x y : Nat) : UnionFind :=
  if u.rank.getD x 0 < u.rank.getD y 0 then ⟨u.parent.set x y, u.rank⟩
  else if u.rank.getD y 0 < u.rank.getD x 0 then ⟨u.parent.set y x, u.rank⟩
  else ⟨u.parent.set y x, u.rank.set x (u.rank.getD x 0 + 1)⟩

/-- Append one arc `fr → h` (`LabeledAdjacencyList` arc insertion). -/
def addArc (g : List (List Half)) (fr : Nat) (h : Half) : List (List Half) :=
  g.set fr (g.getD fr [] ++ [h])

/-- Modelled from the spec: accepting an edge adds "both reciprocal arcs to
an output undirected graph" (`LabeledUndirected.AddEdge`). -/
def addEdge (g : List (List Half)) (n1 n2 : Nat) (l : Int) : List (List Half) :=
  addArc (addArc g n1 ⟨n2, l⟩) n2 ⟨n1, l⟩

/-- State of the Kruskal scan: disjoint-set forest, output graph, total
accepted weight. -/
structure KruskalState where
  uf : UnionFind
  t : List (List Half)
  dist : Int

/-- Modelled from the spec: "scan sorted edges, accepting an edge (adding
both reciprocal arcs to an output undirected graph, accumulating its
weight) iff its endpoints are currently in different sets, then unioning
them; reject (skip) edges that would close a cycle." -/
def kruskalScan (wf : Int → Int) (edges : List LabeledEdge) (s0 : KruskalState) :
    KruskalState :=
  edges.foldl
    (fun s e =>
      let r1 := ufFind s.uf e.n1
      let r2 := ufFind r1.2 e.n2
      if r1.1 = r2.1 then { s with uf := r2.2 }
      else
        { uf := ufUnion r2.2 r1.1 r2.1
          t := addEdge s.t e.n1 e.n2 e.label
          dist := s.dist + wf e.label })
    s0

def kruskalInit (order : Nat) : KruskalState :=
  ⟨ufInit order, List.replicate order [], 0⟩

/-- Comparison used to sort the edge list: ascending weight; the sort is
stable, so equal-weight edges keep their original order. -/
def kruskalLe (wf : Int → Int) (a b : LabeledEdge) : Bool :=
  wf a.label ≤ wf b.label

/-- Modelled from the spec: `Kruskal` first stably sorts the weighted edge
list ascending by weight, then scans. -/
def Kruskal (l : WeightedEdgeList) : List (List Half) × Int :=
  let s := kruskalScan l.weightFunc
    (stableSort (kruskalLe l.weightFunc) l.edges) (kruskalInit l.order)
  (s.t, s.dist)

/-- Modelled from the spec: `KruskalSorted` has "identical acceptance
logic, but skips the sort". -/
def KruskalSorted (l : WeightedEdgeList) : List (List Half) × Int :=
  let s := kruskalScan l.weightFunc l.edges (kruskalInit l.order)
  (s.t, s.dist)

/-- The example graph of `ExampleWeightedEdgeList_Kruskal`: 5 nodes, edges
in the order the test inserts them (unsorted). -/
def kruskalExample : WeightedEdgeList :=
  ⟨5, id,
    [⟨0, 1, 30⟩, ⟨0, 4, 10⟩, ⟨1, 2, 50⟩, ⟨1, 4, 40⟩, ⟨2, 3, 20⟩,
     ⟨2, 4, 60⟩, ⟨3, 4, 70⟩]⟩

/-- C5: On the 5-node weighted graph with edges 0-4 weight 10, 2-3 weight
20, 0-1 weight 30, 1-4 weight 40, 1-2 weight 50, 2-4 weight 60, 3-4 weight
70, Kruskal returns a minimum spanning tree of total weight 110 whose
accepted edges are exactly 0-4, 2-3, 0-1 and 1-2 (the output adjacency
list below records each accepted edge as two reciprocal arcs, matching the
expected output of `ExampleWeightedEdgeList_Kruskal`). -/
theorem kruskal_example_tree :
    Kruskal kruskalExample =
      ([[⟨4, 10⟩, ⟨1, 30⟩], [⟨0, 30⟩, ⟨2, 50⟩], [⟨3, 20⟩, ⟨1, 50⟩],
        [⟨2, 20⟩], [⟨0, 10⟩]], 110) := by
  decide

/-! ## C3: KruskalSorted versus Kruskal -/

/-- Constant weight function used by the tie counterexample: two parallel
0-1 edges with distinct labels but equal weight. -/
def tieWeight : Int → Int := fun _ => 7

def tieEdges : List LabeledEdge := [⟨0, 1, 1⟩, ⟨0, 1, 2⟩]

def tieEdgesPerm : List LabeledEdge := [⟨0, 1, 2⟩, ⟨0, 1, 1⟩]

/-- C3 counterexample: `tieEdges` is ascending-sorted by weight (both
weights are 7) and `tieEdgesPerm` is a permutation of it, yet
`KruskalSorted` on the sorted list and `Kruskal` on the permuted list
build different spanning trees: each accepts a different one of the two
equal-weight parallel edges, so the output graphs carry different labels.
The claim as stated is therefore false. -/
theorem kruskal_sorted_tie_counterexample :
    List.Pairwise (fun a b => kruskalLe tieWeight a b = true) tieEdges ∧
    List.Perm tieEdgesPerm tieEdges ∧
    KruskalSorted ⟨2, tieWeight, tieEdges⟩ ≠ Kruskal ⟨2, tieWeight, tieEdgesPerm⟩ := by
  refine ⟨by decide, by decide, by decide⟩

/-- Two lists that are permutations of each other, both sorted ascending
by an `Int` key, with no key repeated, are equal. -/
theorem eq_of_perm_of_sorted_key {α : Type} (key : α → Int) :
    ∀ (l₁ l₂ : List α), List.Perm l₁ l₂ →
    List.Pairwise (fun a b => key a ≤ key b) l₁ →
    List.Pairwise (fun a b => key a ≤ key b) l₂ →
    (l₁.map key).Nodup → l₁ = l₂
  | [], l₂, hp, _, _, _ => (List.Perm.nil_eq hp).symm.symm
  | a :: t₁, [], hp, _, _, _ => absurd hp.symm (by simp)
  | a :: t₁, b :: t₂, hp, h₁, h₂, hn => by
    rcases List.pairwise_cons.mp h₁ with ⟨ha, ht₁⟩
    rcases List.pairwise_cons.mp h₂ with ⟨hb, ht₂⟩
    simp only [List.map_cons, List.nodup_cons] at hn
    have hab : a = b := by
      have hbmem : b ∈ a :: t₁ := hp.symm.subset (List.mem_cons_self b t₂)
      rcases List.mem_cons.mp hbmem with rfl | hbt
      · rfl
      · have hamem : a ∈ b :: t₂ := hp.subset (List.mem_cons_self a t₁)
        rcases List.mem_cons.mp hamem with rfl | hat
        · rfl
        · exfalso
          have h1 : key a ≤ key b := ha b hbt
          have h2 : key b ≤ key a := hb a hat
          exact hn.1 (by
            have : key b = key a := le_antisymm h2 h1
            exact this ▸ List.mem_map_of_mem key hbt)
    subst hab
    have hperm : List.Perm t₁ t₂ := (List.perm_cons a).mp hp
    have := eq_of_perm_of_sorted_key key t₁ t₂ hperm ht₁ ht₂ hn.2
    rw [this]

/-- The scan of `Kruskal` applied after its stable sort coincides with the
scan of `KruskalSorted` whenever the sort provably rearranges the permuted
edges back into the given sorted list. -/
theorem stableSort_eq_of_sorted_distinct (wf : Int → Int)
    (es es' : List LabeledEdge) (hperm : List.Perm es' es)
    (hsorted : List.Pairwise (fun a b => wf a.label ≤ wf b.label) es)
    (hdist : (es.map fun e => wf e.label).Nodup) :
    stableSort (kruskalLe wf) es' = es := by
  refine eq_of_perm_of_sorted_key (fun e => wf e.label) _ _
    ((stableSort_perm _ es').trans hperm) ?_ hsorted ?_
  · have := stableSort_pairwise (kruskalLe wf)
      (fun x y => by
        simp only [kruskalLe, decide_eq_true_eq]
        exact le_total _ _)
      (fun x y z hxy hyz => by
        simp only [kruskalLe, decide_eq_true_eq] at hxy hyz ⊢
        exact le_trans hxy hyz)
      es'
    refine this.imp ?_
    intro a b h
    simp only [kruskalLe, decide_eq_true_eq] at h
    exact h
  · have : ((stableSort (kruskalLe wf) es').map fun e => wf e.label).Perm
        ((es').map fun e => wf e.label) := (stableSort_perm _ es').map _
    refine this.nodup_iff.mpr ?_
    exact (hperm.map fun e => wf e.label).nodup_iff.mpr hdist

/-- C3 amended: `KruskalSorted` applied to an already ascending-sorted edge
list produces exactly the same spanning tree and total weight as `Kruskal`
applied to the same edges in any (unsorted) order, provided all edge
weights are distinct.  (Without that proviso the claim fails: see the tie
counterexample, where two equal-weight edges make the result depend on the
input order.) -/
theorem kruskal_sorted_eq_kruskal (order : Nat) (wf : Int → Int)
    (es es' : List LabeledEdge) (hperm : List.Perm es' es)
    (hsorted : List.Pairwise (fun a b => wf a.label ≤ wf b.label) es)
    (hdist : (es.map fun e => wf e.label).Nodup) :
    KruskalSorted ⟨order, wf, es⟩ = Kruskal ⟨order, wf, es'⟩ := by
  simp only [Kruskal, KruskalSorted]
  rw [stableSort_eq_of_sorted_distinct wf es es' hperm hsorted hdist]

/-- The already-sorted edge list of `ExampleWeightedEdgeList_KruskalSorted`. -/
def kruskalExampleSorted : List LabeledEdge :=
  [⟨0, 4, 10⟩, ⟨2, 3, 20⟩, ⟨0, 1, 30⟩, ⟨1, 4, 40⟩, ⟨1, 2, 50⟩,
   ⟨2, 4, 60⟩, ⟨3, 4, 70⟩]

/-- Witness for the amended C3 theorem at the worked 5-node example: the
sorted edge list of `ExampleWeightedEdgeList_KruskalSorted` against the
insertion-ordered edges of `ExampleWeightedEdgeList_Kruskal`. -/
theorem kruskal_sorted_eq_kruskal_witness :
    KruskalSorted ⟨5, id, kruskalExampleSorted⟩ = Kruskal kruskalExample :=
  kruskal_sorted_eq_kruskal 5 id kruskalExampleSorted kruskalExample.edges
    (by decide) (by decide) (by decide)

/-! ## HasParallelSort (src/graph.go)

`AdjacencyList.HasParallelSort` copies each node's neighbor slice, sorts
it, and scans for an adjacent duplicate; node ids are `NI = int32`, so the
arc targets are modelled as `Int` (the sentinel result is `(-1, -1)`). -/

/-- The adjacent-duplicate scan of `HasParallelSort`: `t0 := t[0]`, then
compare each later element with its predecessor. -/
def findAdjDup : List Int → Option Int
  | [] => none
  | [_] => none
  | a :: b :: rest => if b = a then some a else findAdjDup (b :: rest)

/-- The loop of `HasParallelSort` over node slots, carrying the current
node id `n`; empty slots are skipped, a sorted nonempty slot is scanned
for an adjacent duplicate. -/
def hasParallelSortAux : Nat → List (List Int) → Int × Int
  | _, [] => (-1, -1)
  | n, tos :: rest =>
    if tos.isEmpty then hasParallelSortAux (n+1) rest
    else
      match findAdjDup (stableSort (fun a b : Int => a ≤ b) tos) with
      | some d => ((n : Int), d)
      | none => hasParallelSortAux (n+1) rest

def hasParallelSort (g : List (List Int)) : Int × Int :=
  hasParallelSortAux 0 g

theorem findAdjDup_count {d : Int} :
    ∀ (l : List Int), findAdjDup l = some d → 2 ≤ l.count d
  | [], h => by simp [findAdjDup] at h
  | [_], h => by simp [findAdjDup] at h
  | a :: b :: rest, h => by
    by_cases hba : b = a
    · simp only [findAdjDup, if_pos hba] at h
      cases h
      subst hba
      simp [List.count_cons]
    · simp only [findAdjDup, if_neg hba] at h
      calc 2 ≤ (b :: rest).count d := findAdjDup_count (b :: rest) h
        _ ≤ (a :: b :: rest).count d := by
            simp only [List.count_cons]
            split <;> omega

theorem findAdjDup_none_nodup :
    ∀ (l : List Int), l.Pairwise (· ≤ ·) → findAdjDup l = none → l.Nodup
  | [], _, _ => List.nodup_nil
  | [a], _, _ => List.nodup_singleton a
  | a :: b :: rest, hp, h => by
    by_cases hba : b = a
    · simp [findAdjDup, if_pos hba] at h
    · simp only [findAdjDup, if_neg hba] at h
      rcases List.pairwise_cons.mp hp with ⟨hab, hbp⟩
      refine List.nodup_cons.mpr ⟨?_, findAdjDup_none_nodup (b :: rest) hbp h⟩
      intro hmem
      rcases List.mem_cons.mp hmem with rfl | hmem
      · exact hba rfl
      · have h1 : a ≤ b := hab b (List.mem_cons_self b rest)
        have h2 : b ≤ a := (List.pairwise_cons.mp hbp).1 a hmem
        exact hba (le_antisymm h2 h1)

theorem findAdjDup_of_nodup :
    ∀ (l : List Int), l.Nodup → findAdjDup l = none
  | [], _ => rfl
  | [_], _ => rfl
  | a :: b :: rest, h => by
    rcases List.nodup_cons.mp h with ⟨hmem, ht⟩
    have hba : b ≠ a := fun hba => hmem (hba ▸ List.mem_cons_self b rest)
    simp only [findAdjDup, if_neg hba]
    exact findAdjDup_of_nodup (b :: rest) ht

/-- Per-slot behavior: scanning the sorted copy of a slot detects no
duplicate iff the slot has none. -/
theorem slotScan_eq_none (tos : List Int) :
    findAdjDup (stableSort (fun a b : Int => a ≤ b) tos) = none ↔ tos.Nodup := by
  constructor
  · intro h
    have hs := stableSort_pairwise (fun a b : Int => a ≤ b)
      (fun x y => by simp only [decide_eq_true_eq]; exact le_total x y)
      (fun x y z hxy hyz => by
        simp only [decide_eq_true_eq] at hxy hyz ⊢
        exact le_trans hxy hyz) tos
    have hs' : (stableSort (fun a b : Int => a ≤ b) tos).Pairwise (· ≤ ·) := by
      refine hs.imp ?_
      intro a b hab
      simpa using hab
    exact ((stableSort_perm _ tos).nodup_iff).mp
      (findAdjDup_none_nodup _ hs' h)
  · intro h
    exact findAdjDup_of_nodup _ (((stableSort_perm _ tos).nodup_iff).mpr h)

theorem slotScan_count {tos : List Int} {d : Int}
    (h : findAdjDup (stableSort (fun a b : Int => a ≤ b) tos) = some d) :
    2 ≤ tos.count d := by
  calc 2 ≤ (stableSort (fun a b : Int => a ≤ b) tos).count d :=
        findAdjDup_count _ h
    _ = tos.count d := (stableSort_perm _ tos).count_eq d

theorem hasParallelSortAux_spec :
    ∀ (rem : List (List Int)) (n : Nat),
      (hasParallelSortAux n rem = (-1, -1) ↔ ∀ l ∈ rem, l.Nodup) ∧
      (hasParallelSortAux n rem ≠ (-1, -1) →
        ∃ k, k < rem.length ∧
          (hasParallelSortAux n rem).1 = ((n + k : Nat) : Int) ∧
          2 ≤ (rem.getD k []).count (hasParallelSortAux n rem).2)
  | [], n => by simp [hasParallelSortAux]
  | tos :: rest, n => by
    have ih := hasParallelSortAux_spec rest (n + 1)
    by_cases he : tos.isEmpty
    · have heq : hasParallelSortAux n (tos :: rest) = hasParallelSortAux (n+1) rest := by
        simp [hasParallelSortAux, he]
      constructor
      · rw [heq, ih.1]
        constructor
        · intro h l hl
          rcases List.mem_cons.mp hl with rfl | hl
          · simp [List.isEmpty_iff.mp he]
          · exact h l hl
        · intro h l hl
          exact h l (List.mem_cons_of_mem _ hl)
      · intro hne
        rw [heq] at hne ⊢
        rcases ih.2 hne with ⟨k, hk, h1, h2⟩
        refine ⟨k + 1, by simpa using hk, ?_, by simpa using h2⟩
        rw [h1]
        congr 1
        omega
    · cases hscan : findAdjDup (stableSort (fun a b : Int => a ≤ b) tos) with
      | some d =>
        have heq : hasParallelSortAux n (tos :: rest) = ((n : Int), d) := by
          simp [hasParallelSortAux, he, hscan]
        constructor
        · rw [heq]
          constructor
          · intro h
            exfalso
            have : (n : Int) = -1 := congrArg Prod.fst h
            omega
          · intro h
            exfalso
            have hnd := h tos (List.mem_cons_self tos rest)
            rw [← slotScan_eq_none] at hnd
            rw [hnd] at hscan
            exact Option.noConfusion hscan
        · intro _
          rw [heq]
          exact ⟨0, by simp, by simp, by simpa using slotScan_count hscan⟩
      | none =>
        have heq : hasParallelSortAux n (tos :: rest) = hasParallelSortAux (n+1) rest := by
          simp [hasParallelSortAux, he, hscan]
        constructor
        · rw [heq, ih.1]
          constructor
          · intro h l hl
            rcases List.mem_cons.mp hl with rfl | hl
            · exact (slotScan_eq_none l).mp hscan
            · exact h l hl
          · intro h l hl
            exact h l (List.mem_cons_of_mem _ hl)
        · intro hne
          rw [heq] at hne ⊢
          rcases ih.2 hne with ⟨k, hk, h1, h2⟩
          refine ⟨k + 1, by simpa using hk, ?_, by simpa using h2⟩
          rw [h1]
          congr 1
          omega

/-- C10: `HasParallelSort` returns `(-1, -1)` iff no node of `g` has two
arcs to the same target (every neighbor slot is duplicate-free; two loops
on one node are a duplicate in that node's slot); otherwise the returned
pair names a node `fr` whose slot contains the arc target at least
twice. -/
theorem hasParallelSort_spec (g : List (List Int)) :
    (hasParallelSort g = (-1, -1) ↔ ∀ l ∈ g, l.Nodup) ∧
    (hasParallelSort g ≠ (-1, -1) →
      ∃ n : Nat, n < g.length ∧ (hasParallelSort g).1 = (n : Int) ∧
        2 ≤ (g.getD n []).count (hasParallelSort g).2) := by
  have h := hasParallelSortAux_spec g 0
  refine ⟨h.1, fun hne => ?_⟩
  rcases h.2 hne with ⟨k, hk, h1, h2⟩
  exact ⟨k, hk, by simpa using h1, h2⟩

/-- Witness for C10 at the example of `ExampleAdjacencyList_HasParallelSort`
after the parallel arc is added: `g = [[], [0, 0]]` has the duplicate arc
from node 1. -/
theorem hasParallelSort_spec_witness :
    ∃ n : Nat, n < ([[], [0, 0]] : List (List Int)).length ∧
      (hasParallelSort [[], [0, 0]]).1 = (n : Int) ∧
      2 ≤ (([[], [0, 0]] : List (List Int)).getD n []).count
        (hasParallelSort [[], [0, 0]]).2 :=
  (hasParallelSort_spec [[], [0, 0]]).2 (by decide)

/-! ## Tarjan strongly connected components

The Tarjan implementation is not among the given source files (only its
example test is), so it is modelled from the specification, section 4.3:
a single-pass depth-first walk tracking, per node, a discovery index and a
low-link; a component is emitted by popping the auxiliary stack down to
and including a node whose low-link equals its own discovery index. -/

/-- Modelled from the spec: per-node discovery index and low-link
bookkeeping, the explicit auxiliary stack, and the components emitted so
far.  `index` and `low` are association lists; the most recent binding of
a node shadows older ones. -/
structure TarjanState where
  counter : Nat
  index : List (Nat × Nat)
  low : List (Nat × Nat)
  stack : List Nat
  comps : List (List Nat)
deriving DecidableEq, Repr

def tIndex (st : TarjanState) (v : Nat) : Option Nat := st.index.lookup v

def tLow (st : TarjanState) (v : Nat) : Nat := (st.low.lookup v).getD 0

def tSetLow (st : TarjanState) (v x : Nat) : TarjanState :=
  { st with low := (v, x) :: st.low }

/-- Modelled from the spec: the scan over a node's arcs.  An unindexed
target is visited recursively and the source's low-link is lowered to the
target's low-link; an indexed target still on the auxiliary stack lowers
the source's low-link to the target's discovery index; an indexed target
no longer on the stack is ignored.  The recursive visit is passed in as
`visit`, keeping the recursion structural. -/
def tarjanArcs (visit : Nat → TarjanState → TarjanState) (v : Nat) :
    List Nat → TarjanState → TarjanState
  | [], st => st
  | w :: ws, st =>
    let st' :=
      if (tIndex st w).isNone then
        let st2 := visit w st
        tSetLow st2 v (min (tLow st2 v) (tLow st2 w))
      else if w ∈ st.stack then
        tSetLow st v (min (tLow st v) ((tIndex st w).getD 0))
      else st
    tarjanArcs visit v ws st'

/-- Modelled from the spec: visiting a node assigns its discovery index,
initializes its low-link to that index, pushes it on the auxiliary stack,
scans its arcs, and, if its low-link still equals its discovery index,
pops the stack down to and including the node, emitting that pop as the
next component (stack order, most recently pushed first). -/
def tarjanVisit (g : List (List Nat)) : Nat → Nat → TarjanState → TarjanState
  | 0, _, st => st
  | fuel+1, v, st =>
    let i := st.counter
    let st1 : TarjanState :=
      { counter := i + 1, index := (v, i) :: st.index, low := (v, i) :: st.low
        stack := v :: st.stack, comps := st.comps }
    let st2 := tarjanArcs (tarjanVisit g fuel) v (g.getD v []) st1
    if tLow st2 v = i then
      let comp := st2.stack.takeWhile (fun x => x ≠ v) ++ [v]
      let rest := (st2.stack.dropWhile (fun x => x ≠ v)).tail
      { st2 with stack := rest, comps := st2.comps ++ [comp] }
    else st2

/-- Modelled from the spec: the walk restarts from every not-yet-indexed
node in ascending id order.  One fuel unit is spent per nested visit and
every nested visit indexes a fresh node, so `g.length + 1` fuel always
suffices. -/
def Tarjan (g : List (List Nat)) : List (List Nat) :=
  ((List.range g.length).foldl
    (fun st v =>
      if (tIndex st v).isNone then tarjanVisit g (g.length + 1) v st else st)
    ⟨0, [], [], [], []⟩).comps

/-- The 8-node directed graph of `ExampleAdjacencyList_Tarjan`. -/
def tarjanExample : List (List Nat) :=
  [[1], [4, 2, 5], [3, 6], [2, 7], [5, 0], [6], [5], [3, 6]]

/-- C6: on the 8-node directed graph with arcs 0 to 1; 1 to 4, 2, 5; 2 to
3, 6; 3 to 2, 7; 4 to 5, 0; 5 to 6; 6 to 5; 7 to 3, 6, Tarjan returns
exactly three components, in the order 6 5, then 7 3 2, then 4 1 0 —
matching the expected output of the example test. -/
theorem tarjan_example_components :
    Tarjan tarjanExample = [[6, 5], [7, 3, 2], [4, 1, 0]] ∧
    (Tarjan tarjanExample).length = 3 := by
  decide

/-! ## Depth-first traversal engine (src/df/df.go)

`df.Search` runs either a traversal (no conditional visitor) or a search
(conditional visitors returning continue/stop).  `visitedFunc` marks a
node on first query, so `traverse`/`search` recurse only into fresh nodes.
The Go recursion carries no structural termination argument; here it takes
fuel, and `dfTraverse_eq_dfsAux` shows the canonical fuel `dfFuel` is
always sufficient, by tying the recursion to the terminating worklist
machine `dfsAux` (the proof vehicle for reachability). -/

/-- Arc targets of node `n`: every target named in `g`'s slot for `n` is
among the concatenated slots. -/

theorem getD_subset_flatten (g : List (List Nat)) (n : Nat) :
    ∀ x ∈ g.getD n [], x ∈ g.flatten := by
  intro x hx
  by_cases h : n < g.length
  · rw [List.getD_eq_getElem g [] h] at hx
    exact List.mem_flatten.mpr ⟨g[n], List.getElem_mem h, hx⟩
  · rw [List.getD_eq_default g [] (le_of_not_lt h)] at hx
    exact absurd hx (List.not_mem_nil x)

/-- Worklist rendering of the df traversal skeleton: pop a node, skip it
if already marked, otherwise mark it and push its neighbor slot.  This is
the ideal unbounded recursion that `dfTraverse` (the direct model of
`dfTraverseNodes.traverse`) is proved to compute. -/
def dfsAux (g : List (List Nat)) : List Nat → List Nat → List Nat
  | [], vis => vis
  | n :: rest, vis =>
    if n ∈ vis then dfsAux g rest vis
    else dfsAux g (g.getD n [] ++ rest) (n :: vis)
termination_by l vis => ((((g.flatten.toFinset ∪ l.toFinset) \ vis.toFinset).card, l.length) : Nat × Nat)
decreasing_by
· rename_i h
  have heq : (g.flatten.toFinset ∪ (n :: rest).toFinset) \ vis.toFinset
      = (g.flatten.toFinset ∪ rest.toFinset) \ vis.toFinset := by
    ext x
    simp only [Finset.mem_sdiff, Finset.mem_union, List.mem_toFinset, List.mem_cons]
    constructor
    · rintro ⟨h1 | h1, h2⟩
      · exact ⟨Or.inl h1, h2⟩
      · rcases h1 with rfl | h1
        · exact absurd h h2
        · exact ⟨Or.inr h1, h2⟩
    · rintro ⟨h1 | h1, h2⟩
      · exact ⟨Or.inl h1, h2⟩
      · exact ⟨Or.inr (Or.inr h1), h2⟩
  rw [heq]
  exact Prod.Lex.right _ (Nat.lt_succ_self _)
· rename_i h
  apply Prod.Lex.left
  apply Finset.card_lt_card
  constructor
  · intro x hx
    simp only [Finset.mem_sdiff, Finset.mem_union, List.mem_toFinset, List.mem_append,
      List.mem_cons] at hx ⊢
    obtain ⟨h1, h2⟩ := hx
    have hxn : ¬ (x = n ∨ x ∈ vis) := fun hc => h2 hc
    push_neg at hxn
    refine ⟨?_, fun hv => hxn.2 hv⟩
    rcases h1 with h1 | h1 | h1
    · exact Or.inl h1
    · exact Or.inl (getD_subset_flatten g n x h1)
    · exact Or.inr (Or.inr h1)
  · intro hsub
    have hn : n ∈ (g.flatten.toFinset ∪ (n :: rest).toFinset) \ vis.toFinset := by
      simp [h]
    have h2 := hsub hn
    simp at h2

theorem dfsAux_suffix (g : List (List Nat)) :
    ∀ (l vis : List Nat), vis.IsSuffix (dfsAux g l vis) := by
  intro l vis
  induction l, vis using dfsAux.induct g with
  | case1 vis => simp [dfsAux]
  | case2 n rest vis h ih =>
    rw [dfsAux, if_pos h]
    exact ih
  | case3 n rest vis h ih =>
    rw [dfsAux, if_neg h]
    exact (List.suffix_cons n vis).trans ih

/-- One arc of the adjacency list: `u` has an outgoing arc to `v`. -/
def adjStep (g : List (List Nat)) (u v : Nat) : Prop := v ∈ g.getD u []

theorem dfsAux_nodup (g : List (List Nat)) :
    ∀ (l vis : List Nat), vis.Nodup → (dfsAux g l vis).Nodup := by
  intro l vis
  induction l, vis using dfsAux.induct g with
  | case1 vis => intro h; simpa [dfsAux] using h
  | case2 n rest vis h ih =>
    rw [dfsAux, if_pos h]
    exact ih
  | case3 n rest vis h ih =>
    intro hnd
    rw [dfsAux, if_neg h]
    exact ih (List.nodup_cons.mpr ⟨h, hnd⟩)

theorem dfsAux_mem_of_mem (g : List (List Nat)) :
    ∀ (l vis : List Nat), ∀ x ∈ l, x ∈ dfsAux g l vis := by
  intro l vis
  induction l, vis using dfsAux.induct g with
  | case1 vis => intro x hx; exact absurd hx (List.not_mem_nil x)
  | case2 n rest vis h ih =>
    intro x hx
    rw [dfsAux, if_pos h]
    rcases List.mem_cons.mp hx with rfl | hx
    · exact (dfsAux_suffix g rest vis).subset h
    · exact ih x hx
  | case3 n rest vis h ih =>
    intro x hx
    rw [dfsAux, if_neg h]
    rcases List.mem_cons.mp hx with rfl | hx
    · exact (dfsAux_suffix g _ _).subset (List.mem_cons_self x vis)
    · exact ih x (List.mem_append_right _ hx)

theorem dfsAux_sound (g : List (List Nat)) :
    ∀ (l vis : List Nat), ∀ x ∈ dfsAux g l vis,
      x ∈ vis ∨ ∃ n ∈ l, Relation.ReflTransGen (adjStep g) n x := by
  intro l vis
  induction l, vis using dfsAux.induct g with
  | case1 vis => intro x hx; rw [dfsAux] at hx; exact Or.inl hx
  | case2 n rest vis h ih =>
    intro x hx
    rw [dfsAux, if_pos h] at hx
    rcases ih x hx with hx | ⟨m, hm, hr⟩
    · exact Or.inl hx
    · exact Or.inr ⟨m, List.mem_cons_of_mem n hm, hr⟩
  | case3 n rest vis h ih =>
    intro x hx
    rw [dfsAux, if_neg h] at hx
    rcases ih x hx with hx | ⟨m, hm, hr⟩
    · rcases List.mem_cons.mp hx with rfl | hx
      · exact Or.inr ⟨x, List.mem_cons_self x rest, Relation.ReflTransGen.refl⟩
      · exact Or.inl hx
    · rcases List.mem_append.mp hm with hm | hm
      · exact Or.inr ⟨n, List.mem_cons_self n rest,
          Relation.ReflTransGen.head hm hr⟩
      · exact Or.inr ⟨m, List.mem_cons_of_mem n hm, hr⟩

theorem dfsAux_closed (g : List (List Nat)) :
    ∀ (l vis : List Nat),
      (∀ u ∈ vis, ∀ v, adjStep g u v → v ∈ vis ∨ v ∈ l) →
      ∀ u ∈ dfsAux g l vis, ∀ v, adjStep g u v → v ∈ dfsAux g l vis := by
  intro l vis
  induction l, vis using dfsAux.induct g with
  | case1 vis =>
    intro hinv u hu v hv
    rw [dfsAux] at hu ⊢
    rcases hinv u hu v hv with h | h
    · exact h
    · exact absurd h (List.not_mem_nil v)
  | case2 n rest vis h ih =>
    intro hinv u hu v hv
    rw [dfsAux, if_pos h] at hu ⊢
    refine ih ?_ u hu v hv
    intro u' hu' v' hv'
    rcases hinv u' hu' v' hv' with h' | h'
    · exact Or.inl h'
    · rcases List.mem_cons.mp h' with rfl | h'
      · exact Or.inl h
      · exact Or.inr h'
  | case3 n rest vis h ih =>
    intro hinv u hu v hv
    rw [dfsAux, if_neg h] at hu ⊢
    refine ih ?_ u hu v hv
    intro u' hu' v' hv'
    rcases List.mem_cons.mp hu' with rfl | hu'
    · exact Or.inr (List.mem_append_left _ hv')
    · rcases hinv u' hu' v' hv' with h' | h'
      · exact Or.inl (List.mem_cons_of_mem n h')
      · rcases List.mem_cons.mp h' with rfl | h'
        · exact Or.inl (List.mem_cons_self v' vis)
        · exact Or.inr (List.mem_append_right _ h')

theorem dfsAux_append (g : List (List Nat)) :
    ∀ (l₁ vis l₂ : List Nat),
      dfsAux g (l₁ ++ l₂) vis = dfsAux g l₂ (dfsAux g l₁ vis) := by
  intro l₁ vis
  induction l₁, vis using dfsAux.induct g with
  | case1 vis => intro l₂; rw [dfsAux]; rfl
  | case2 n rest vis h ih =>
    intro l₂
    rw [List.cons_append, dfsAux, if_pos h, dfsAux, if_pos h]
    exact ih l₂
  | case3 n rest vis h ih =>
    intro l₂
    rw [List.cons_append, dfsAux, if_neg h, dfsAux, if_neg h, ← List.append_assoc]
    exact ih l₂

theorem dfsAux_reachable (g : List (List Nat)) (start x : Nat)
    (h : Relation.ReflTransGen (adjStep g) start x) :
    x ∈ dfsAux g [start] [] := by
  induction h with
  | refl => exact dfsAux_mem_of_mem g [start] [] start (List.mem_cons_self start [])
  | tail h1 h2 ih =>
    exact dfsAux_closed g [start] []
      (fun u hu => absurd hu (List.not_mem_nil u)) _ ih _ h2

/-- Direct model of traversal mode (`dfTraverseNodes.traverse` composed
with `config.visitedFunc` and `config.adjToTraverse`): if `n` is marked,
return; otherwise mark `n` and traverse each neighbor in slot order.  The
visited bitset is the `List Nat` of marks, most recent first; unconditional
visitors observe but never alter this control flow. -/
def dfTraverse (g : List (List Nat)) : Nat → Nat → List Nat → List Nat
  | 0, _, vis => vis
  | fuel+1, n, vis =>
    if n ∈ vis then vis
    else (g.getD n []).foldl (fun v m => dfTraverse g fuel m v) (n :: vis)

theorem dfsAux_single_visited (g : List (List Nat)) {n : Nat} {vis : List Nat}
    (h : n ∈ vis) : dfsAux g [n] vis = vis := by
  rw [dfsAux, if_pos h, dfsAux]

theorem dfTraverse_bridge (g : List (List Nat)) :
    ∀ (fuel n : Nat) (vis : List Nat),
      ((g.flatten.toFinset ∪ {n}) \ vis.toFinset).card < fuel →
      dfTraverse g fuel n vis = dfsAux g [n] vis := by
  intro fuel
  induction fuel with
  | zero => intro n vis h; exact absurd h (Nat.not_lt_zero _)
  | succ f ih =>
    intro n vis hcard
    by_cases h : n ∈ vis
    · rw [dfTraverse, if_pos h, dfsAux_single_visited g h]
    · rw [dfTraverse, if_neg h, dfsAux, if_neg h, List.append_nil]
      have hlt : (g.flatten.toFinset \ (n :: vis).toFinset).card <
          ((g.flatten.toFinset ∪ {n}) \ vis.toFinset).card := by
        apply Finset.card_lt_card
        constructor
        · intro x hx
          simp only [Finset.mem_sdiff, Finset.mem_union, List.mem_toFinset,
            List.mem_cons, Finset.mem_singleton] at hx ⊢
          push_neg at hx
          exact ⟨Or.inl hx.1, hx.2.2⟩
        · intro hsub
          have hn : n ∈ (g.flatten.toFinset ∪ {n}) \ vis.toFinset := by
            simp [h]
          have h2 := hsub hn
          simp at h2
      have hf : (g.flatten.toFinset \ (n :: vis).toFinset).card < f := by omega
      -- fold over the children from the state n :: vis
      have main : ∀ (cs v : List Nat), (∀ m ∈ cs, m ∈ g.flatten) →
          (g.flatten.toFinset \ v.toFinset).card < f →
          List.foldl (fun v m => dfTraverse g f m v) v cs = dfsAux g cs v := by
        intro cs
        induction cs with
        | nil => intro v _ _; rw [List.foldl_nil, dfsAux]
        | cons m cs' ihc =>
          intro v hmem hv
          rw [List.foldl_cons]
          have hm : m ∈ g.flatten := hmem m (List.mem_cons_self m cs')
          have hcardm : ((g.flatten.toFinset ∪ {m}) \ v.toFinset).card < f := by
            have : g.flatten.toFinset ∪ {m} = g.flatten.toFinset := by
              apply Finset.union_eq_left.mpr
              simpa using hm
            rw [this]
            exact hv
          rw [ih m v hcardm]
          have hsub : (dfsAux g [m] v).toFinset ⊇ v.toFinset := by
            intro x hx
            simp only [List.mem_toFinset] at hx ⊢
            exact (dfsAux_suffix g [m] v).subset hx
          have hv' : (g.flatten.toFinset \ (dfsAux g [m] v).toFinset).card < f := by
            refine lt_of_le_of_lt (Finset.card_le_card ?_) hv
            intro x hx
            simp only [Finset.mem_sdiff] at hx ⊢
            exact ⟨hx.1, fun hc => hx.2 (hsub hc)⟩
          rw [ihc _ (fun m' hm' => hmem m' (List.mem_cons_of_mem m hm')) hv']
          rw [show dfsAux g (m :: cs') v = dfsAux g cs' (dfsAux g [m] v) from by
            rw [← dfsAux_append g [m] v cs']; rfl]
      exact main (g.getD n []) (n :: vis)
        (fun m hm => getD_subset_flatten g n m hm) hf

/-- Canonical sufficient fuel for the df recursion: every nesting level
marks a fresh node, and only `start` and arc targets are ever marked. -/
def dfFuel (g : List (List Nat)) : Nat := g.flatten.length + 2

theorem dfTraverse_eq_dfsAux (g : List (List Nat)) (n : Nat) (vis : List Nat) :
    dfTraverse g (dfFuel g) n vis = dfsAux g [n] vis := by
  apply dfTraverse_bridge
  calc ((g.flatten.toFinset ∪ {n}) \ vis.toFinset).card
      ≤ (g.flatten.toFinset ∪ {n}).card := Finset.card_le_card (Finset.sdiff_subset)
    _ ≤ g.flatten.toFinset.card + 1 := by
        refine le_trans (Finset.card_union_le _ _) ?_
        simp
    _ ≤ g.flatten.length + 1 := by
        have := g.flatten.toFinset_card_le
        omega
    _ < dfFuel g := by simp [dfFuel]

/-- Direct model of traversal mode over a labeled adjacency list
(`config.labToTraverse`): identical to `dfTraverse` except that the
neighbor id is the `To` field of the half-arc. -/
def labTraverse (g : List (List Half)) : Nat → Nat → List Nat → List Nat
  | 0, _, vis => vis
  | fuel+1, n, vis =>
    if n ∈ vis then vis
    else (g.getD n []).foldl (fun v m => labTraverse g fuel m.To v) (n :: vis)

/-- Target projection of a labeled adjacency list: `labFunc` differs from
`adjFunc` only in resolving a neighbor as `to.To`. -/
def labProject (g : List (List Half)) : List (List Nat) :=
  g.map (List.map Half.To)

theorem labProject_getD (g : List (List Half)) (n : Nat) :
    (labProject g).getD n [] = (g.getD n []).map Half.To := by
  by_cases h : n < g.length
  · have h' : n < (labProject g).length := by simpa [labProject] using h
    rw [List.getD_eq_getElem _ [] h, List.getD_eq_getElem _ [] h']
    simp [labProject]
  · rw [List.getD_eq_default _ [] (le_of_not_lt h),
      List.getD_eq_default _ [] (by simpa [labProject] using le_of_not_lt h)]
    rfl

theorem labTraverse_eq (g : List (List Half)) :
    ∀ (fuel n : Nat) (vis : List Nat),
      labTraverse g fuel n vis = dfTraverse (labProject g) fuel n vis := by
  intro fuel
  induction fuel with
  | zero => intro n vis; rfl
  | succ f ih =>
    intro n vis
    rw [labTraverse, dfTraverse]
    by_cases h : n ∈ vis
    · rw [if_pos h, if_pos h]
    · rw [if_neg h, if_neg h, labProject_getD, List.foldl_map]
      have : (fun (v : List Nat) (m : Half) => labTraverse g f m.To v)
          = fun v m => dfTraverse (labProject g) f m.To v := by
        funext v m
        exact ih m.To v
      rw [this]

def labFuel (g : List (List Half)) : Nat := g.flatten.length + 2

theorem labFuel_eq (g : List (List Half)) : labFuel g = dfFuel (labProject g) := by
  have : (labProject g).flatten = g.flatten.map Half.To := by
    simp [labProject]
  rw [labFuel, dfFuel, this, List.length_map]

/-- One arc of a labeled adjacency list, ignoring the label. -/
def labAdjStep (g : List (List Half)) (u v : Nat) : Prop :=
  ∃ a ∈ g.getD u [], a.To = v

theorem labAdjStep_eq (g : List (List Half)) :
    labAdjStep g = adjStep (labProject g) := by
  funext u v
  refine propext ?_
  rw [labAdjStep, adjStep, labProject_getD]
  simp [List.mem_map]

theorem dfTraverse_mem_iff (g : List (List Nat)) (start x : Nat) :
    x ∈ dfTraverse g (dfFuel g) start [] ↔
      Relation.ReflTransGen (adjStep g) start x := by
  rw [dfTraverse_eq_dfsAux]
  constructor
  · intro hx
    rcases dfsAux_sound g [start] [] x hx with hx | ⟨n, hn, hr⟩
    · exact absurd hx (List.not_mem_nil x)
    · rcases List.mem_cons.mp hn with rfl | hn
      · exact hr
      · exact absurd hn (List.not_mem_nil n)
  · exact dfsAux_reachable g start x

/-- C1: for every adjacency-list graph (plain or labeled) and every start
node, depth-first traversal (df.Search with no conditional visitor) visits
exactly the set of nodes reachable from the start node (the marks equal
the reflexive-transitive closure of the arc relation), visits each such
node exactly once (the mark list has no duplicates), terminates even on
cyclic graphs (the fueled recursion provably reaches the worklist
machine's fixpoint), and its visited set is independent of the
neighbor-visit order: any per-slot permutation of the graph, which is what
a configured random source produces, yields the same visited set. -/
theorem df_traversal_reachable (g g' : List (List Nat)) (lg : List (List Half))
    (start ls : Nat)
    (hperm : ∀ n, (g'.getD n []).Perm (g.getD n [])) :
    (dfTraverse g (dfFuel g) start []).Nodup
    ∧ (∀ x, x ∈ dfTraverse g (dfFuel g) start [] ↔
        Relation.ReflTransGen (adjStep g) start x)
    ∧ (labTraverse lg (labFuel lg) ls []).Nodup
    ∧ (∀ x, x ∈ labTraverse lg (labFuel lg) ls [] ↔
        Relation.ReflTransGen (labAdjStep lg) ls x)
    ∧ (∀ x, x ∈ dfTraverse g' (dfFuel g') start [] ↔
        x ∈ dfTraverse g (dfFuel g) start []) := by
  have hstep : adjStep g' = adjStep g := by
    funext u v
    refine propext ?_
    simp only [adjStep]
    exact (hperm u).mem_iff
  refine ⟨?_, fun x => dfTraverse_mem_iff g start x, ?_, ?_, ?_⟩
  · rw [dfTraverse_eq_dfsAux]
    exact dfsAux_nodup g [start] [] List.nodup_nil
  · rw [labTraverse_eq, labFuel_eq, dfTraverse_eq_dfsAux]
    exact dfsAux_nodup _ [ls] [] List.nodup_nil
  · intro x
    rw [labTraverse_eq, labFuel_eq, labAdjStep_eq]
    exact dfTraverse_mem_iff (labProject lg) ls x
  · intro x
    rw [dfTraverse_mem_iff g' start x, dfTraverse_mem_iff g start x, hstep]

/-- Witness for C1 on a concrete cyclic graph and a reordered copy. -/
theorem df_traversal_reachable_witness :
    2 ∈ dfTraverse [[2, 1], [], [0]] (dfFuel [[2, 1], [], [0]]) 0 [] ↔
      2 ∈ dfTraverse [[1, 2], [], [0]] (dfFuel [[1, 2], [], [0]]) 0 [] :=
  (df_traversal_reachable [[1, 2], [], [0]] [[2, 1], [], [0]]
    [[⟨1, 5⟩], []] 0 0 (by
      intro n
      match n with
      | 0 => decide
      | 1 => decide
      | 2 => decide
      | (k+3) =>
        rw [List.getD_eq_default _ _ (by simp), List.getD_eq_default _ _ (by simp)]
        )).2.2.2.2 2

/-! ## Search mode of the traversal engine (src/df/df.go)

With a conditional visitor configured, `adjFunc` selects the
`dfSearchNodes` skeleton: every step returns continue/stop and a stop
propagates out through every enclosing loop.  The model logs every visitor
invocation as an event, in call order. -/

/-- Events observed by df search-mode visitors. -/
inductive DfEvent where
  | node (n : Nat)
  | arc (n x : Nat)
deriving DecidableEq, Repr

def okEvent (p : Nat → Bool) (q : Nat → Nat → Bool) : DfEvent → Bool
  | .node n => p n
  | .arc n x => q n x

def evNode : DfEvent → Option Nat
  | .node n => some n
  | .arc _ _ => none

/-- Search-mode arc loop (`config.adjToSearch` with an `OkArcVisitor`):
for each neighbor, the conditional arc visitor runs first; a stop from it,
or from the recursive search of the target, aborts the loop and the whole
call.  `search` is the recursive node search, passed in explicitly. -/
def searchArcs (q : Nat → Nat → Bool)
    (search : Nat → List Nat → List DfEvent → Bool × List Nat × List DfEvent)
    (n : Nat) : Nat → List Nat → List Nat → List DfEvent →
    Bool × List Nat × List DfEvent
  | _, [], vis, evs => (true, vis, evs)
  | x, t :: ts, vis, evs =>
    if q n x then
      let r := search t vis (evs ++ [DfEvent.arc n x])
      if r.1 then searchArcs q search n (x+1) ts r.2.1 r.2.2
      else (false, r.2.1, r.2.2)
    else (false, vis, evs ++ [DfEvent.arc n x])

/-- Search mode of df.Search (`dfSearchNodes.search` with an
`OkNodeVisitor` and an `OkArcVisitor`): a visited node reports continue
without events; a fresh node is marked, then its conditional node visitor
runs, and only on continue are its arcs scanned. -/
def searchNode (g : List (List Nat)) (p : Nat → Bool) (q : Nat → Nat → Bool) :
    Nat → Nat → List Nat → List DfEvent → Bool × List Nat × List DfEvent
  | 0, _, vis, evs => (true, vis, evs)
  | fuel+1, n, vis, evs =>
    if n ∈ vis then (true, vis, evs)
    else
      if p n then
        searchArcs q (searchNode g p q fuel) n 0 (g.getD n [])
          (n :: vis) (evs ++ [DfEvent.node n])
      else (false, n :: vis, evs ++ [DfEvent.node n])

/-- The shape every search-mode result has relative to its initial marks
and event log: the log grows by a delta whose events all report continue,
except that a stop result puts exactly one stopping event last; the new
marks are exactly the node events of the delta, most recent first. -/
def SearchSpec (p : Nat → Bool) (q : Nat → Nat → Bool)
    (r : Bool × List Nat × List DfEvent) (vis : List Nat)
    (evs : List DfEvent) : Prop :=
  ∃ d, r.2.2 = evs ++ d ∧
    (r.1 = true → ∀ e ∈ d, okEvent p q e = true) ∧
    (r.1 = false → ∃ es e, d = es ++ [e] ∧
      (∀ e' ∈ es, okEvent p q e' = true) ∧ okEvent p q e = false) ∧
    r.2.1 = (d.filterMap evNode).reverse ++ vis

theorem searchArcs_spec (p : Nat → Bool) (q : Nat → Nat → Bool)
    (search : Nat → List Nat → List DfEvent → Bool × List Nat × List DfEvent)
    (hsearch : ∀ t vis evs, SearchSpec p q (search t vis evs) vis evs)
    (n : Nat) :
    ∀ (ts : List Nat) (x : Nat) (vis : List Nat) (evs : List DfEvent),
      SearchSpec p q (searchArcs q search n x ts vis evs) vis evs := by
  intro ts
  induction ts with
  | nil =>
    intro x vis evs
    exact ⟨[], by simp [searchArcs], by simp, by simp [searchArcs], by simp [searchArcs]⟩
  | cons t ts' ih =>
    intro x vis evs
    rw [searchArcs]
    by_cases hq : q n x = true
    · rw [if_pos hq]
      obtain ⟨d1, hd1, ht1, hf1, hv1⟩ := hsearch t vis (evs ++ [DfEvent.arc n x])
      by_cases hr : (search t vis (evs ++ [DfEvent.arc n x])).1 = true
      · rw [if_pos hr]
        obtain ⟨d2, hd2, ht2, hf2, hv2⟩ :=
          ih (x+1) (search t vis (evs ++ [DfEvent.arc n x])).2.1
            (search t vis (evs ++ [DfEvent.arc n x])).2.2
        refine ⟨DfEvent.arc n x :: (d1 ++ d2), ?_, ?_, ?_, ?_⟩
        · rw [hd2, hd1]
          simp
        · intro htrue e he
          rcases List.mem_cons.mp he with rfl | he
          · simpa [okEvent] using hq
          · rcases List.mem_append.mp he with he | he
            · exact ht1 hr e he
            · exact ht2 htrue e he
        · intro hfalse
          rcases hf2 hfalse with ⟨es, e, hsplit, hok, hstop⟩
          refine ⟨DfEvent.arc n x :: (d1 ++ es), e, ?_, ?_, hstop⟩
          · rw [hsplit]; simp
          · intro e' he'
            rcases List.mem_cons.mp he' with rfl | he'
            · simpa [okEvent] using hq
            · rcases List.mem_append.mp he' with he' | he'
              · exact ht1 hr e' he'
              · exact hok e' he'
        · rw [hv2, hv1]
          simp [evNode]
      · rw [if_neg hr]
        replace hr : (search t vis (evs ++ [DfEvent.arc n x])).1 = false := by
          simpa using hr
        refine ⟨DfEvent.arc n x :: d1, ?_, ?_, ?_, ?_⟩
        · rw [hd1]; simp
        · intro htrue; simp at htrue
        · intro _
          rcases hf1 hr with ⟨es, e, hsplit, hok, hstop⟩
          refine ⟨DfEvent.arc n x :: es, e, ?_, ?_, hstop⟩
          · rw [hsplit]; simp
          · intro e' he'
            rcases List.mem_cons.mp he' with rfl | he'
            · simpa [okEvent] using hq
            · exact hok e' he'
        · rw [hv1]; simp [evNode]
    · rw [if_neg hq]
      refine ⟨[DfEvent.arc n x], by simp, ?_, ?_, by simp [evNode]⟩
      · intro h; exact absurd h (by simp)
      · intro _
        exact ⟨[], DfEvent.arc n x, by simp, by simp,
          by simpa [okEvent] using hq⟩

theorem searchNode_spec (g : List (List Nat)) (p : Nat → Bool)
    (q : Nat → Nat → Bool) :
    ∀ (fuel n : Nat) (vis : List Nat) (evs : List DfEvent),
      SearchSpec p q (searchNode g p q fuel n vis evs) vis evs := by
  intro fuel
  induction fuel with
  | zero =>
    intro n vis evs
    exact ⟨[], by simp [searchNode], by simp, by simp [searchNode], by simp [searchNode]⟩
  | succ f ih =>
    intro n vis evs
    rw [searchNode]
    by_cases hv : n ∈ vis
    · rw [if_pos hv]
      exact ⟨[], by simp, by simp, by simp, by simp⟩
    · rw [if_neg hv]
      by_cases hp : p n = true
      · rw [if_pos hp]
        obtain ⟨d, hd, ht, hf, hvi⟩ := searchArcs_spec p q (searchNode g p q f)
          (fun t vis' evs' => ih t vis' evs') n (g.getD n []) 0
          (n :: vis) (evs ++ [DfEvent.node n])
        refine ⟨DfEvent.node n :: d, ?_, ?_, ?_, ?_⟩
        · rw [hd]; simp
        · intro htrue e he
          rcases List.mem_cons.mp he with rfl | he
          · simpa [okEvent] using hp
          · exact ht htrue e he
        · intro hfalse
          rcases hf hfalse with ⟨es, e, hsplit, hok, hstop⟩
          refine ⟨DfEvent.node n :: es, e, ?_, ?_, hstop⟩
          · rw [hsplit]; simp
          · intro e' he'
            rcases List.mem_cons.mp he' with rfl | he'
            · simpa [okEvent] using hp
            · exact hok e' he'
        · rw [hvi]; simp [evNode]
      · rw [if_neg hp]
        refine ⟨[DfEvent.node n], by simp, ?_, ?_, by simp [evNode]⟩
        · intro h; exact absurd h (by simp)
        · intro _
          exact ⟨[], DfEvent.node n, by simp, by simp,
            by simpa [okEvent] using hp⟩

/-- C2: in search mode of df.Search, whenever a conditional (node or arc)
visitor returns stop at some node, no node is visited afterwards at any
level of the recursion: in the event log of the whole top-level call, every
event before the last reports continue, a stop result means the single
stopping event is the final event of the log (so nothing reachable only
through the stopped node's unexplored subtree, and no not-yet-visited
sibling at any ancestor level, is ever visited), and the nodes marked
visited are exactly the node events of the log, so no node is marked after
the stop either; the top-level call returns immediately after that
event. -/
theorem df_search_stop_propagation (g : List (List Nat)) (p : Nat → Bool)
    (q : Nat → Nat → Bool) (fuel start : Nat) (vis : List Nat) :
    ((searchNode g p q fuel start vis []).1 = true →
      ∀ e ∈ (searchNode g p q fuel start vis []).2.2, okEvent p q e = true) ∧
    ((searchNode g p q fuel start vis []).1 = false →
      ∃ es e, (searchNode g p q fuel start vis []).2.2 = es ++ [e] ∧
        (∀ e' ∈ es, okEvent p q e' = true) ∧ okEvent p q e = false) ∧
    (searchNode g p q fuel start vis []).2.1 =
      ((searchNode g p q fuel start vis []).2.2.filterMap evNode).reverse ++ vis := by
  obtain ⟨d, hd, ht, hf, hv⟩ := searchNode_spec g p q fuel start vis []
  simp only [List.nil_append] at hd
  rw [hd]
  exact ⟨ht, hf, by rw [hv]⟩

/-- Witness for C2: searching `[[1, 2], [], []]` from 0 with a node
visitor that stops at node 1 produces a log whose only stop is its last
event (node 2 is never visited). -/
theorem df_search_stop_propagation_witness :
    ∃ es e,
      (searchNode [[1, 2], [], []] (fun n => !(n == 1)) (fun _ _ => true)
        5 0 [] []).2.2 = es ++ [e] ∧
      (∀ e' ∈ es, okEvent (fun n => !(n == 1)) (fun _ _ => true) e' = true) ∧
      okEvent (fun n => !(n == 1)) (fun _ _ => true) e = false :=
  (df_search_stop_propagation [[1, 2], [], []] (fun n => !(n == 1))
    (fun _ _ => true) 5 0 []).2.1 (by decide)

/-- Search-mode arc loop over a labeled adjacency list
(`config.labToSearch`): identical to `searchArcs` except that the neighbor
id is the `To` field of the half-arc. -/
def labSearchArcs (q : Nat → Nat → Bool)
    (search : Nat → List Nat → List DfEvent → Bool × List Nat × List DfEvent)
    (n : Nat) : Nat → List Half → List Nat → List DfEvent →
    Bool × List Nat × List DfEvent
  | _, [], vis, evs => (true, vis, evs)
  | x, t :: ts, vis, evs =>
    if q n x then
      let r := search t.To vis (evs ++ [DfEvent.arc n x])
      if r.1 then labSearchArcs q search n (x+1) ts r.2.1 r.2.2
      else (false, r.2.1, r.2.2)
    else (false, vis, evs ++ [DfEvent.arc n x])

/-- Search mode over a labeled adjacency list (`labFunc` with conditional
visitors). -/
def labSearchNode (g : List (List Half)) (p : Nat → Bool) (q : Nat → Nat → Bool) :
    Nat → Nat → List Nat → List DfEvent → Bool × List Nat × List DfEvent
  | 0, _, vis, evs => (true, vis, evs)
  | fuel+1, n, vis, evs =>
    if n ∈ vis then (true, vis, evs)
    else
      if p n then
        labSearchArcs q (labSearchNode g p q fuel) n 0 (g.getD n [])
          (n :: vis) (evs ++ [DfEvent.node n])
      else (false, n :: vis, evs ++ [DfEvent.node n])

theorem labSearchArcs_eq (q : Nat → Nat → Bool)
    (search : Nat → List Nat → List DfEvent → Bool × List Nat × List DfEvent)
    (n : Nat) :
    ∀ (ts : List Half) (x : Nat) (vis : List Nat) (evs : List DfEvent),
      labSearchArcs q search n x ts vis evs =
        searchArcs q search n x (ts.map Half.To) vis evs := by
  intro ts
  induction ts with
  | nil => intro x vis evs; rfl
  | cons t ts' ih =>
    intro x vis evs
    rw [labSearchArcs, List.map_cons, searchArcs]
    by_cases hq : q n x = true
    · rw [if_pos hq, if_pos hq]
      by_cases hr : (search t.To vis (evs ++ [DfEvent.arc n x])).1 = true
      · rw [if_pos hr, if_pos hr, ih]
      · rw [if_neg hr, if_neg hr]
    · rw [if_neg hq, if_neg hq]

theorem labSearchNode_eq (g : List (List Half)) (p : Nat → Bool)
    (q : Nat → Nat → Bool) :
    ∀ (fuel n : Nat) (vis : List Nat) (evs : List DfEvent),
      labSearchNode g p q fuel n vis evs =
        searchNode (labProject g) p q fuel n vis evs := by
  intro fuel
  induction fuel with
  | zero => intro n vis evs; rfl
  | succ f ih =>
    intro n vis evs
    rw [labSearchNode, searchNode]
    by_cases hv : n ∈ vis
    · rw [if_pos hv, if_pos hv]
    · rw [if_neg hv, if_neg hv]
      by_cases hp : p n = true
      · rw [if_pos hp, if_pos hp]
        have hfun : labSearchNode g p q f = searchNode (labProject g) p q f := by
          funext a b c
          exact ih a b c
        rw [hfun, labSearchArcs_eq, labProject_getD]
      · rw [if_neg hp, if_neg hp]

/-! ## The Search entry point (src/df/df.go, `Search` and `config`)

`Search` validates the visitor configuration, allocates a visited bitset
when none was supplied, dispatches on the dynamic type of the graph
argument, and only then runs the traversal.  To make the frame claim about
the input graph a theorem rather than a convention of the embedding, the
traversal loops are re-stated here threading the graph through the mutable
state exactly as the Go closures capture it; projection lemmas identify
them with the pure models above. -/

/-- State visible to a traversal-mode run over a plain adjacency list: the
captured graph and the visited marks. -/
structure AdjSt where
  graph : List (List Nat)
  vis : List Nat
deriving DecidableEq, Repr

/-- `dfTraverse` with the graph threaded through the state. -/
def dfTraverseSt : Nat → Nat → AdjSt → AdjSt
  | 0, _, s => s
  | fuel+1, n, s =>
    if n ∈ s.vis then s
    else (s.graph.getD n []).foldl (fun t m => dfTraverseSt fuel m t)
      ⟨s.graph, n :: s.vis⟩

theorem dfTraverseSt_eq :
    ∀ (fuel n : Nat) (s : AdjSt),
      dfTraverseSt fuel n s = ⟨s.graph, dfTraverse s.graph fuel n s.vis⟩ := by
  intro fuel
  induction fuel with
  | zero => intro n s; rfl
  | succ f ih =>
    intro n s
    rw [dfTraverseSt, dfTraverse]
    by_cases h : n ∈ s.vis
    · rw [if_pos h, if_pos h]
    · rw [if_neg h, if_neg h]
      have main : ∀ (cs : List Nat) (v : List Nat),
          List.foldl (fun t m => dfTraverseSt f m t) ⟨s.graph, v⟩ cs =
            ⟨s.graph, List.foldl (fun v' m => dfTraverse s.graph f m v') v cs⟩ := by
        intro cs
        induction cs with
        | nil => intro v; rfl
        | cons m cs' ihc =>
          intro v
          rw [List.foldl_cons, List.foldl_cons, ih m ⟨s.graph, v⟩]
          exact ihc (dfTraverse s.graph f m v)
      exact main (s.graph.getD n []) (n :: s.vis)

/-- State visible to a traversal-mode run over a labeled adjacency
list. -/
structure LabSt where
  graph : List (List Half)
  vis : List Nat
deriving DecidableEq, Repr

/-- `labTraverse` with the graph threaded through the state. -/
def labTraverseSt : Nat → Nat → LabSt → LabSt
  | 0, _, s => s
  | fuel+1, n, s =>
    if n ∈ s.vis then s
    else (s.graph.getD n []).foldl (fun t m => labTraverseSt fuel m.To t)
      ⟨s.graph, n :: s.vis⟩

theorem labTraverseSt_eq :
    ∀ (fuel n : Nat) (s : LabSt),
      labTraverseSt fuel n s = ⟨s.graph, labTraverse s.graph fuel n s.vis⟩ := by
  intro fuel
  induction fuel with
  | zero => intro n s; rfl
  | succ f ih =>
    intro n s
    rw [labTraverseSt, labTraverse]
    by_cases h : n ∈ s.vis
    · rw [if_pos h, if_pos h]
    · rw [if_neg h, if_neg h]
      have main : ∀ (cs : List Half) (v : List Nat),
          List.foldl (fun t m => labTraverseSt f m.To t) ⟨s.graph, v⟩ cs =
            ⟨s.graph, List.foldl (fun v' m => labTraverse s.graph f m.To v') v cs⟩ := by
        intro cs
        induction cs with
        | nil => intro v; rfl
        | cons m cs' ihc =>
          intro v
          rw [List.foldl_cons, List.foldl_cons, ih m.To ⟨s.graph, v⟩]
          exact ihc (labTraverse s.graph f m.To v)
      exact main (s.graph.getD n []) (n :: s.vis)

/-- State visible to a search-mode run over a plain adjacency list. -/
structure AdjSearchSt where
  graph : List (List Nat)
  vis : List Nat
  evs : List DfEvent
deriving DecidableEq, Repr

/-- `searchArcs` with the graph threaded through the state. -/
def searchArcsSt (q : Nat → Nat → Bool)
    (search : Nat → AdjSearchSt → Bool × AdjSearchSt) (n : Nat) :
    Nat → List Nat → AdjSearchSt → Bool × AdjSearchSt
  | _, [], s => (true, s)
  | x, t :: ts, s =>
    if q n x then
      let r := search t { s with evs := s.evs ++ [DfEvent.arc n x] }
      if r.1 then searchArcsSt q search n (x+1) ts r.2
      else (false, r.2)
    else (false, { s with evs := s.evs ++ [DfEvent.arc n x] })

/-- `searchNode` with the graph threaded through the state. -/
def searchNodeSt (p : Nat → Bool) (q : Nat → Nat → Bool) :
    Nat → Nat → AdjSearchSt → Bool × AdjSearchSt
  | 0, _, s => (true, s)
  | fuel+1, n, s =>
    if n ∈ s.vis then (true, s)
    else
      if p n then
        searchArcsSt q (searchNodeSt p q fuel) n 0 (s.graph.getD n [])
          { s with vis := n :: s.vis, evs := s.evs ++ [DfEvent.node n] }
      else (false, { s with vis := n :: s.vis, evs := s.evs ++ [DfEvent.node n] })

theorem searchArcsSt_eq (q : Nat → Nat → Bool) (g0 : List (List Nat))
    (sSt : Nat → AdjSearchSt → Bool × AdjSearchSt)
    (sp : Nat → List Nat → List DfEvent → Bool × List Nat × List DfEvent)
    (hs : ∀ t v e, sSt t ⟨g0, v, e⟩ =
      ((sp t v e).1, ⟨g0, (sp t v e).2.1, (sp t v e).2.2⟩))
    (n : Nat) :
    ∀ (ts : List Nat) (x : Nat) (v : List Nat) (e : List DfEvent),
      searchArcsSt q sSt n x ts ⟨g0, v, e⟩ =
        ((searchArcs q sp n x ts v e).1,
          ⟨g0, (searchArcs q sp n x ts v e).2.1,
            (searchArcs q sp n x ts v e).2.2⟩) := by
  intro ts
  induction ts with
  | nil => intro x v e; rfl
  | cons t ts' ih =>
    intro x v e
    rw [searchArcsSt, searchArcs]
    by_cases hq : q n x = true
    · rw [if_pos hq, if_pos hq]
      simp only
      rw [hs t v (e ++ [DfEvent.arc n x])]
      by_cases hr : (sp t v (e ++ [DfEvent.arc n x])).1 = true
      · rw [if_pos hr, if_pos hr]
        exact ih (x+1) _ _
      · rw [if_neg hr, if_neg hr]
    · rw [if_neg hq, if_neg hq]

theorem searchNodeSt_eq (p : Nat → Bool) (q : Nat → Nat → Bool) :
    ∀ (fuel n : Nat) (s : AdjSearchSt),
      searchNodeSt p q fuel n s =
        ((searchNode s.graph p q fuel n s.vis s.evs).1,
          ⟨s.graph, (searchNode s.graph p q fuel n s.vis s.evs).2.1,
            (searchNode s.graph p q fuel n s.vis s.evs).2.2⟩) := by
  intro fuel
  induction fuel with
  | zero => intro n s; rfl
  | succ f ih =>
    intro n s
    rw [searchNodeSt, searchNode]
    by_cases hv : n ∈ s.vis
    · rw [if_pos hv, if_pos hv]
    · rw [if_neg hv, if_neg hv]
      by_cases hp : p n = true
      · rw [if_pos hp, if_pos hp]
        exact searchArcsSt_eq q s.graph (searchNodeSt p q f)
          (searchNode s.graph p q f)
          (fun t v e => ih t ⟨s.graph, v, e⟩) n (s.graph.getD n []) 0
          (n :: s.vis) (s.evs ++ [DfEvent.node n])
      · rw [if_neg hp, if_neg hp]

/-- State visible to a search-mode run over a labeled adjacency list. -/
structure LabSearchSt where
  graph : List (List Half)
  vis : List Nat
  evs : List DfEvent
deriving DecidableEq, Repr

/-- `labSearchArcs` with the graph threaded through the state. -/
def labSearchArcsSt (q : Nat → Nat → Bool)
    (search : Nat → LabSearchSt → Bool × LabSearchSt) (n : Nat) :
    Nat → List Half → LabSearchSt → Bool × LabSearchSt
  | _, [], s => (true, s)
  | x, t :: ts, s =>
    if q n x then
      let r := search t.To { s with evs := s.evs ++ [DfEvent.arc n x] }
      if r.1 then labSearchArcsSt q search n (x+1) ts r.2
      else (false, r.2)
    else (false, { s with evs := s.evs ++ [DfEvent.arc n x] })

/-- `labSearchNode` with the graph threaded through the state. -/
def labSearchNodeSt (p : Nat → Bool) (q : Nat → Nat → Bool) :
    Nat → Nat → LabSearchSt → Bool × LabSearchSt
  | 0, _, s => (true, s)
  | fuel+1, n, s =>
    if n ∈ s.vis then (true, s)
    else
      if p n then
        labSearchArcsSt q (labSearchNodeSt p q fuel) n 0 (s.graph.getD n [])
          { s with vis := n :: s.vis, evs := s.evs ++ [DfEvent.node n] }
      else (false, { s with vis := n :: s.vis, evs := s.evs ++ [DfEvent.node n] })

theorem labSearchArcsSt_eq (q : Nat → Nat → Bool) (g0 : List (List Half))
    (sSt : Nat → LabSearchSt → Bool × LabSearchSt)
    (sp : Nat → List Nat → List DfEvent → Bool × List Nat × List DfEvent)
    (hs : ∀ t v e, sSt t ⟨g0, v, e⟩ =
      ((sp t v e).1, ⟨g0, (sp t v e).2.1, (sp t v e).2.2⟩))
    (n : Nat) :
    ∀ (ts : List Half) (x : Nat) (v : List Nat) (e : List DfEvent),
      labSearchArcsSt q sSt n x ts ⟨g0, v, e⟩ =
        ((labSearchArcs q sp n x ts v e).1,
          ⟨g0, (labSearchArcs q sp n x ts v e).2.1,
            (labSearchArcs q sp n x ts v e).2.2⟩) := by
  intro ts
  induction ts with
  | nil => intro x v e; rfl
  | cons t ts' ih =>
    intro x v e
    rw [labSearchArcsSt, labSearchArcs]
    by_cases hq : q n x = true
    · rw [if_pos hq, if_pos hq]
      simp only
      rw [hs t.To v (e ++ [DfEvent.arc n x])]
      by_cases hr : (sp t.To v (e ++ [DfEvent.arc n x])).1 = true
      · rw [if_pos hr, if_pos hr]
        exact ih (x+1) _ _
      · rw [if_neg hr, if_neg hr]
    · rw [if_neg hq, if_neg hq]

theorem labSearchNodeSt_eq (p : Nat → Bool) (q : Nat → Nat → Bool) :
    ∀ (fuel n : Nat) (s : LabSearchSt),
      labSearchNodeSt p q fuel n s =
        ((labSearchNode s.graph p q fuel n s.vis s.evs).1,
          ⟨s.graph, (labSearchNode s.graph p q fuel n s.vis s.evs).2.1,
            (labSearchNode s.graph p q fuel n s.vis s.evs).2.2⟩) := by
  intro fuel
  induction fuel with
  | zero => intro n s; rfl
  | succ f ih =>
    intro n s
    rw [labSearchNodeSt, labSearchNode]
    by_cases hv : n ∈ s.vis
    · rw [if_pos hv, if_pos hv]
    · rw [if_neg hv, if_neg hv]
      by_cases hp : p n = true
      · rw [if_pos hp, if_pos hp]
        exact labSearchArcsSt_eq q s.graph (labSearchNodeSt p q f)
          (labSearchNode s.graph p q f)
          (fun t v e => ih t ⟨s.graph, v, e⟩) n (s.graph.getD n []) 0
          (n :: s.vis) (s.evs ++ [DfEvent.node n])
      · rw [if_neg hp, if_neg hp]

/-- The dynamic graph argument of `Search` (`g interface{}`): a plain
adjacency list, a labeled adjacency list, or any other value. -/
inductive GraphArg where
  | adj (g : List (List Nat))
  | lab (g : List (List Half))
  | other
deriving DecidableEq

/-- The `config` built by the option functions of package df: presence of
an unconditional node/arc visitor, the optional conditional visitors, and
the optional caller-supplied visited bitset.  (A configured random source
is modelled in C1 as a per-slot permutation of the graph.) -/
structure DfConfig where
  nodeVisitor : Bool
  okNodeVisitor : Option (Nat → Bool)
  arcVisitor : Bool
  okArcVisitor : Option (Nat → Nat → Bool)
  visited : Option (List Nat)

/-- What a `Search` call leaves behind: the returned error, the graph
argument after the call, the visited marks, and the conditional-visitor
event log. -/
structure SearchResult where
  err : Option String
  graph : GraphArg
  visited : List Nat
  events : List DfEvent

/-- The dispatch of `Search` on the graph argument's dynamic type (the
`switch t := g.(type)` statement): runs the traversal, in search mode iff
some conditional visitor is configured, or rejects the value.  An absent
conditional visitor never stops, hence the `getD` constants in search
mode. -/
def searchDispatch (start : Nat) (cf : DfConfig) (vis : List Nat) :
    GraphArg → SearchResult
  | .adj a =>
    if cf.okNodeVisitor.isSome || cf.okArcVisitor.isSome then
      let r := searchNodeSt (cf.okNodeVisitor.getD fun _ => true)
        (cf.okArcVisitor.getD fun _ _ => true) (dfFuel a) start ⟨a, vis, []⟩
      ⟨none, .adj r.2.graph, r.2.vis, r.2.evs⟩
    else
      let s := dfTraverseSt (dfFuel a) start ⟨a, vis⟩
      ⟨none, .adj s.graph, s.vis, []⟩
  | .lab a =>
    if cf.okNodeVisitor.isSome || cf.okArcVisitor.isSome then
      let r := labSearchNodeSt (cf.okNodeVisitor.getD fun _ => true)
        (cf.okArcVisitor.getD fun _ _ => true) (labFuel a) start ⟨a, vis, []⟩
      ⟨none, .lab r.2.graph, r.2.vis, r.2.evs⟩
    else
      let s := labTraverseSt (labFuel a) start ⟨a, vis⟩
      ⟨none, .lab s.graph, s.vis, []⟩
  | .other => ⟨some "invalid graph type", .other, vis, []⟩

/-- Model of `df.Search`: the two visitor-conflict checks run first, in
source order; then the visited bitset defaults to a fresh all-clear one;
then the dispatch on the graph's dynamic type either rejects it or runs
the traversal. -/
def Search (g : GraphArg) (start : Nat) (cf : DfConfig) : SearchResult :=
  if cf.nodeVisitor && cf.okNodeVisitor.isSome then
    ⟨some "NodeVisitor and OkNodeVisitor cannot both be specified",
      g, cf.visited.getD [], []⟩
  else if cf.arcVisitor && cf.okArcVisitor.isSome then
    ⟨some "ArcVisitor and OkArcVisitor cannot both be specified",
      g, cf.visited.getD [], []⟩
  else
    searchDispatch start cf (cf.visited.getD []) g

/-- C4: `Search` returns an error exactly when both a NodeVisitor and an
OkNodeVisitor are configured, or both an ArcVisitor and an OkArcVisitor
are configured, or the graph argument is neither a plain nor a labeled
adjacency list; on an error no node is visited (the caller's bitset is
returned untouched) and no visitor is invoked (the event log is empty);
otherwise the returned error is nil. -/
theorem search_config_validation (g : GraphArg) (start : Nat) (cf : DfConfig) :
    ((Search g start cf).err.isSome = true ↔
      ((cf.nodeVisitor = true ∧ cf.okNodeVisitor.isSome = true) ∨
       (cf.arcVisitor = true ∧ cf.okArcVisitor.isSome = true) ∨
       g = GraphArg.other)) ∧
    ((Search g start cf).err.isSome = true →
      (Search g start cf).visited = cf.visited.getD [] ∧
      (Search g start cf).events = []) := by
  by_cases h1 : (cf.nodeVisitor && cf.okNodeVisitor.isSome) = true
  · rw [Search, if_pos h1]
    have hab : cf.nodeVisitor = true ∧ cf.okNodeVisitor.isSome = true := by
      simpa using h1
    exact ⟨⟨fun _ => Or.inl hab, fun _ => rfl⟩, fun _ => ⟨rfl, rfl⟩⟩
  · rw [Search, if_neg h1]
    by_cases h2 : (cf.arcVisitor && cf.okArcVisitor.isSome) = true
    · rw [if_pos h2]
      have hab : cf.arcVisitor = true ∧ cf.okArcVisitor.isSome = true := by
        simpa using h2
      exact ⟨⟨fun _ => Or.inr (Or.inl hab), fun _ => rfl⟩, fun _ => ⟨rfl, rfl⟩⟩
    · rw [if_neg h2]
      have hno : ¬ ((cf.nodeVisitor = true ∧ cf.okNodeVisitor.isSome = true) ∨
          (cf.arcVisitor = true ∧ cf.okArcVisitor.isSome = true)) := by
        intro hc
        rcases hc with ⟨ha, hb⟩ | ⟨ha, hb⟩
        · exact h1 (by rw [ha, hb]; rfl)
        · exact h2 (by rw [ha, hb]; rfl)
      cases g with
      | adj a =>
        have herr : (searchDispatch start cf (cf.visited.getD [])
            (GraphArg.adj a)).err = none := by
          rw [searchDispatch]
          by_cases hm : (cf.okNodeVisitor.isSome || cf.okArcVisitor.isSome) = true
          · rw [if_pos hm]
          · rw [if_neg hm]
        constructor
        · rw [herr]
          constructor
          · intro hc; exact absurd hc (by simp)
          · intro hc
            rcases hc with hc | hc | hc
            · exact absurd (Or.inl hc) hno
            · exact absurd (Or.inr hc) hno
            · exact GraphArg.noConfusion hc
        · rw [herr]
          intro hc; exact absurd hc (by simp)
      | lab a =>
        have herr : (searchDispatch start cf (cf.visited.getD [])
            (GraphArg.lab a)).err = none := by
          rw [searchDispatch]
          by_cases hm : (cf.okNodeVisitor.isSome || cf.okArcVisitor.isSome) = true
          · rw [if_pos hm]
          · rw [if_neg hm]
        constructor
        · rw [herr]
          constructor
          · intro hc; exact absurd hc (by simp)
          · intro hc
            rcases hc with hc | hc | hc
            · exact absurd (Or.inl hc) hno
            · exact absurd (Or.inr hc) hno
            · exact GraphArg.noConfusion hc
        · rw [herr]
          intro hc; exact absurd hc (by simp)
      | other =>
        exact ⟨⟨fun _ => Or.inr (Or.inr rfl), fun _ => rfl⟩, fun _ => ⟨rfl, rfl⟩⟩

/-- Witness for C4: configuring both a NodeVisitor and an OkNodeVisitor is
reported as an error. -/
theorem search_config_validation_witness :
    (Search (GraphArg.adj [[]]) 0
      ⟨true, some fun _ => true, false, none, none⟩).err.isSome = true :=
  (search_config_validation (GraphArg.adj [[]]) 0
    ⟨true, some fun _ => true, false, none, none⟩).1.mpr (Or.inl ⟨rfl, rfl⟩)

/-- C8: when no visited bitset is supplied, `Search` allocates a fresh
all-clear one before traversal begins, and the whole call then behaves
identically to the same call given a caller-supplied all-clear bitset.
(The Go allocation `&graph.Bits{}` is an empty bitset backed by a
`big.Int` that grows on demand, so its capacity is not observable; the
behavioral content is this equality.) -/
theorem search_default_bitset (g : GraphArg) (start : Nat) (cf : DfConfig) :
    Search g start { cf with visited := none } =
      Search g start { cf with visited := some [] } := rfl

/-- C9: the input adjacency list (plain or labeled) is left completely
unchanged by `Search`: the graph component of the threaded state is
preserved by every traversal and search loop, and the graph argument
`Search` hands back is the one it was given — the only state the run
changes is the visited marks (and the visitor event log). -/
theorem search_graph_unchanged (g : GraphArg) (start : Nat) (cf : DfConfig)
    (p : Nat → Bool) (q : Nat → Nat → Bool) (fuel n : Nat)
    (s : AdjSt) (ss : AdjSearchSt) (ls : LabSt) (lss : LabSearchSt) :
    (Search g start cf).graph = g ∧
    (dfTraverseSt fuel n s).graph = s.graph ∧
    (searchNodeSt p q fuel n ss).2.graph = ss.graph ∧
    (labTraverseSt fuel n ls).graph = ls.graph ∧
    (labSearchNodeSt p q fuel n lss).2.graph = lss.graph := by
  refine ⟨?_, by rw [dfTraverseSt_eq], by rw [searchNodeSt_eq],
    by rw [labTraverseSt_eq], by rw [labSearchNodeSt_eq]⟩
  by_cases h1 : (cf.nodeVisitor && cf.okNodeVisitor.isSome) = true
  · rw [Search, if_pos h1]
  · rw [Search, if_neg h1]
    by_cases h2 : (cf.arcVisitor && cf.okArcVisitor.isSome) = true
    · rw [if_pos h2]
    · rw [if_neg h2]
      cases g with
      | adj a =>
        rw [searchDispatch]
        by_cases hm : (cf.okNodeVisitor.isSome || cf.okArcVisitor.isSome) = true
        · rw [if_pos hm]
          simp only
          rw [searchNodeSt_eq]
        · rw [if_neg hm]
          simp only
          rw [dfTraverseSt_eq]
      | lab a =>
        rw [searchDispatch]
        by_cases hm : (cf.okNodeVisitor.isSome || cf.okArcVisitor.isSome) = true
        · rw [if_pos hm]
          simp only
          rw [labSearchNodeSt_eq]
        · rw [if_neg hm]
          simp only
          rw [labTraverseSt_eq]
      | other => rw [searchDispatch]

/-! ## Topological sort

The topological-sort implementation is not among the given source files
(only its example test is), so it is modelled from the specification,
section 4.3: depth-first postorder over all nodes, restarting from each
unvisited node in ascending id order, with the result reversed; any
detected cycle (an arc back into the current recursion stack) invalidates
the entire ordering. -/

/-- Modelled from the spec, section 4.3: the scan over a node's arcs
during the topological-sort walk; any cycle report aborts the whole
pass.  The recursive visit is passed in as `visit`, keeping the recursion
structural. -/
def topoArcs (visit : Nat → List Nat → List Nat → Option (List Nat)) :
    List Nat → List Nat → List Nat → Option (List Nat)
  | [], order, _ => some order
  | c :: cs, order, stack =>
    match visit c order stack with
    | none => none
    | some o => topoArcs visit cs o stack

/-- Modelled from the spec, section 4.3: the topological sort
implementation is not among the given source files (only its example test
is).  "Depth-first postorder over all nodes", distinguishing nodes "on
current recursion stack" (`stack`, a hit means a cycle) from "fully
finished" (`order`); a node is prepended to `order` when it finishes, so
`order` is the reversed postorder. -/
def topoVisit (g : List (List Nat)) : Nat → Nat → List Nat → List Nat → Option (List Nat)
  | 0, _, _, _ => none
  | fuel+1, n, order, stack =>
    if n ∈ order then some order
    else if n ∈ stack then none
    else (topoArcs (topoVisit g fuel) (g.getD n []) order (n :: stack)).map
      (fun o => n :: o)

/-- Modelled from the spec: the walk restarts "from each unvisited node
in ascending id order"; any cycle detection empties the entire result. -/
def topoAll (g : List (List Nat)) (fuel : Nat) : List Nat → List Nat → Option (List Nat)
  | [], order => some order
  | v :: vs, order =>
    match topoVisit g fuel v order [] with
    | none => none
    | some o => topoAll g fuel vs o

/-- Modelled from the spec: the full topological sort; an empty result
reports a cycle.  One fuel unit is spent per nested visit and every
nested visit pushes a fresh in-range node, so `g.length + 1` fuel always
suffices (`topoVisit_total`). -/
def Topological (g : List (List Nat)) : List Nat :=
  match topoAll g (g.length + 1) (List.range g.length) [] with
  | none => []
  | some order => order

/-- The finished-order invariant: every arc source already finished has its
target finished later in the list (closer to the tail). -/
def OrdInv (g : List (List Nat)) (order : List Nat) : Prop :=
  ∀ u l₁ l₂, order = l₁ ++ u :: l₂ → ∀ v, adjStep g u v → v ∈ l₂

theorem ordInv_nil (g : List (List Nat)) : OrdInv g [] := by
  intro u l₁ l₂ h
  exact absurd h (by simp)

theorem ordInv_cons (g : List (List Nat)) (n : Nat) (order : List Nat)
    (h : OrdInv g order) (hch : ∀ v, adjStep g n v → v ∈ order) :
    OrdInv g (n :: order) := by
  intro u l₁ l₂ heq v hv
  match l₁, heq with
  | [], heq =>
    rw [List.nil_append] at heq
    cases heq
    exact hch v hv
  | x :: l₁', heq =>
    rw [List.cons_append] at heq
    have h1 : order = l₁' ++ u :: l₂ := by
      exact (List.cons.injEq _ _ _ _).mp heq |>.2
    exact h u l₁' l₂ h1 v hv

/-- Along the invariant order, every transitive successor of a finished
node lies strictly later. -/
theorem ordInv_transGen (g : List (List Nat)) (order : List Nat)
    (hinv : OrdInv g order) {u v : Nat}
    (h : Relation.TransGen (adjStep g) u v) :
    ∀ l₁ l₂, order = l₁ ++ u :: l₂ → v ∈ l₂ := by
  induction h with
  | single hs =>
    intro l₁ l₂ heq
    exact hinv u l₁ l₂ heq _ hs
  | tail ht hs ih =>
    rename_i w _
    intro l₁ l₂ heq
    have hw : w ∈ l₂ := ih l₁ l₂ heq
    rcases List.append_of_mem hw with ⟨l₃, l₄, rfl⟩
    have heq2 : order = (l₁ ++ u :: l₃) ++ w :: l₄ := by
      rw [heq]
      simp
    have := hinv w (l₁ ++ u :: l₃) l₄ heq2 _ hs
    exact List.mem_append_right l₃ (List.mem_cons_of_mem w this)

/-- A duplicate-free order satisfying the invariant admits no cycle
through its members. -/
theorem ordInv_no_cycle (g : List (List Nat)) (order : List Nat)
    (hinv : OrdInv g order) (hnd : order.Nodup) {u : Nat} (hu : u ∈ order)
    (hcyc : Relation.TransGen (adjStep g) u u) : False := by
  rcases List.append_of_mem hu with ⟨l₁, l₂, rfl⟩
  have hmem : u ∈ l₂ := ordInv_transGen g _ hinv hcyc l₁ l₂ rfl
  have : ¬ u ∈ l₂ := by
    have h2 := (List.nodup_append.mp hnd).2.1
    exact (List.nodup_cons.mp h2).1
  exact this hmem

/-- Soundness of the arc scan, given soundness of the visit function it
drives. -/
theorem topoArcs_sound (g : List (List Nat))
    (visit : Nat → List Nat → List Nat → Option (List Nat))
    (hvisit : ∀ n order stack o, visit n order stack = some o →
      order.Nodup → OrdInv g order → (∀ x ∈ order, x ∉ stack) →
      order.IsSuffix o ∧ o.Nodup ∧ OrdInv g o ∧ (∀ x ∈ o, x ∉ stack) ∧
        n ∈ o ∧ (∀ x ∈ o, x ∈ order ∨ x = n ∨ x ∈ g.flatten)) :
    ∀ (cs order stack o : List Nat), topoArcs visit cs order stack = some o →
      order.Nodup → OrdInv g order → (∀ x ∈ order, x ∉ stack) →
      order.IsSuffix o ∧ o.Nodup ∧ OrdInv g o ∧ (∀ x ∈ o, x ∉ stack) ∧
        (∀ c ∈ cs, c ∈ o) ∧ (∀ x ∈ o, x ∈ order ∨ x ∈ cs ∨ x ∈ g.flatten) := by
  intro cs
  induction cs with
  | nil =>
    intro order stack o heq hnd hinv hdis
    rw [topoArcs] at heq
    cases heq
    exact ⟨List.suffix_refl _, hnd, hinv, hdis,
      fun c hc => absurd hc (List.not_mem_nil c),
      fun x hx => Or.inl hx⟩
  | cons c cs' ih =>
    intro order stack o heq hnd hinv hdis
    rw [topoArcs] at heq
    cases hv : visit c order stack with
    | none => rw [hv] at heq; exact Option.noConfusion heq
    | some o₁ =>
      rw [hv] at heq
      simp only at heq
      obtain ⟨hsuf₁, hnd₁, hinv₁, hdis₁, hc₁, hprov₁⟩ :=
        hvisit c order stack o₁ hv hnd hinv hdis
      obtain ⟨hsuf₂, hnd₂, hinv₂, hdis₂, hcs₂, hprov₂⟩ :=
        ih o₁ stack o heq hnd₁ hinv₁ hdis₁
      refine ⟨hsuf₁.trans hsuf₂, hnd₂, hinv₂, hdis₂, ?_, ?_⟩
      · intro d hd
        rcases List.mem_cons.mp hd with rfl | hd
        · exact hsuf₂.subset hc₁
        · exact hcs₂ d hd
      · intro x hx
        rcases hprov₂ x hx with hx1 | hx1 | hx1
        · rcases hprov₁ x hx1 with hx2 | hx2 | hx2
          · exact Or.inl hx2
          · exact Or.inr (Or.inl (hx2 ▸ List.mem_cons_self c cs'))
          · exact Or.inr (Or.inr hx2)
        · exact Or.inr (Or.inl (List.mem_cons_of_mem c hx1))
        · exact Or.inr (Or.inr hx1)

/-- Soundness of a successful visit: the finished order only grows, stays
duplicate-free and invariant, never contains a node of the recursion
stack, finishes the visited node, and adds only that node or arc
targets. -/
theorem topoVisit_sound (g : List (List Nat)) :
    ∀ (fuel : Nat) (n : Nat) (order stack o : List Nat),
      topoVisit g fuel n order stack = some o →
      order.Nodup → OrdInv g order → (∀ x ∈ order, x ∉ stack) →
      order.IsSuffix o ∧ o.Nodup ∧ OrdInv g o ∧ (∀ x ∈ o, x ∉ stack) ∧
        n ∈ o ∧ (∀ x ∈ o, x ∈ order ∨ x = n ∨ x ∈ g.flatten) := by
  intro fuel
  induction fuel with
  | zero =>
    intro n order stack o heq
    exact absurd heq (by rw [topoVisit]; exact Option.noConfusion)
  | succ f ih =>
    intro n order stack o heq hnd hinv hdis
    rw [topoVisit] at heq
    by_cases ho : n ∈ order
    · rw [if_pos ho] at heq
      cases heq
      exact ⟨List.suffix_refl _, hnd, hinv, hdis, ho, fun x hx => Or.inl hx⟩
    · rw [if_neg ho] at heq
      by_cases hs : n ∈ stack
      · rw [if_pos hs] at heq
        exact Option.noConfusion heq
      · rw [if_neg hs] at heq
        rcases Option.map_eq_some'.mp heq with ⟨ok, hok, rfl⟩
        have hdis' : ∀ x ∈ order, x ∉ n :: stack := by
          intro x hx
          rw [List.mem_cons]
          push_neg
          exact ⟨fun hc => ho (hc ▸ hx), hdis x hx⟩
        obtain ⟨hsuf, hndk, hinvk, hdisk, hcsk, hprovk⟩ :=
          topoArcs_sound g (topoVisit g f) (fun a b c d => ih a b c d)
            (g.getD n []) order (n :: stack) ok hok hnd hinv hdis'
        have hnk : n ∉ ok := by
          intro hc
          exact hdisk n hc (List.mem_cons_self n stack)
        refine ⟨hsuf.trans (List.suffix_cons n ok), ?_, ?_, ?_, ?_, ?_⟩
        · exact List.nodup_cons.mpr ⟨hnk, hndk⟩
        · exact ordInv_cons g n ok hinvk (fun v hv => hcsk v hv)
        · intro x hx
          rcases List.mem_cons.mp hx with rfl | hx
          · exact hs
          · intro hc
            exact hdisk x hx (List.mem_cons_of_mem n hc)
        · exact List.mem_cons_self n ok
        · intro x hx
          rcases List.mem_cons.mp hx with rfl | hx
          · exact Or.inr (Or.inl rfl)
          · rcases hprovk x hx with hx1 | hx1 | hx1
            · exact Or.inl hx1
            · exact Or.inr (Or.inr (getD_subset_flatten g n x hx1))
            · exact Or.inr (Or.inr hx1)

/-- Soundness of a successful full pass. -/
theorem topoAll_sound (g : List (List Nat)) (fuel : Nat) :
    ∀ (vs order o : List Nat), topoAll g fuel vs order = some o →
      order.Nodup → OrdInv g order →
      order.IsSuffix o ∧ o.Nodup ∧ OrdInv g o ∧ (∀ v ∈ vs, v ∈ o) ∧
        (∀ x ∈ o, x ∈ order ∨ x ∈ vs ∨ x ∈ g.flatten) := by
  intro vs
  induction vs with
  | nil =>
    intro order o heq hnd hinv
    rw [topoAll] at heq
    cases heq
    exact ⟨List.suffix_refl _, hnd, hinv,
      fun v hv => absurd hv (List.not_mem_nil v), fun x hx => Or.inl hx⟩
  | cons v vs' ih =>
    intro order o heq hnd hinv
    rw [topoAll] at heq
    cases hv : topoVisit g fuel v order [] with
    | none => rw [hv] at heq; exact Option.noConfusion heq
    | some o₁ =>
      rw [hv] at heq
      simp only at heq
      obtain ⟨hsuf₁, hnd₁, hinv₁, _, hv₁, hprov₁⟩ :=
        topoVisit_sound g fuel v order [] o₁ hv hnd hinv
          (fun x _ => List.not_mem_nil x)
      obtain ⟨hsuf₂, hnd₂, hinv₂, hvs₂, hprov₂⟩ := ih o₁ o heq hnd₁ hinv₁
      refine ⟨hsuf₁.trans hsuf₂, hnd₂, hinv₂, ?_, ?_⟩
      · intro w hw
        rcases List.mem_cons.mp hw with rfl | hw
        · exact hsuf₂.subset hv₁
        · exact hvs₂ w hw
      · intro x hx
        rcases hprov₂ x hx with hx1 | hx1 | hx1
        · rcases hprov₁ x hx1 with hx2 | hx2 | hx2
          · exact Or.inl hx2
          · exact Or.inr (Or.inl (hx2 ▸ List.mem_cons_self v vs'))
          · exact Or.inr (Or.inr hx2)
        · exact Or.inr (Or.inl (List.mem_cons_of_mem v hx1))
        · exact Or.inr (Or.inr hx1)

/-- The recursion stack is a directed path down to the node being
visited: any stack member reaches it. -/
theorem chain_stack_cycle (g : List (List Nat)) :
    ∀ (stack : List Nat) (n m : Nat),
      List.Chain (fun a b => adjStep g b a) n stack → m ∈ stack →
      Relation.TransGen (adjStep g) m n := by
  intro stack
  induction stack with
  | nil => intro n m _ hm; exact absurd hm (List.not_mem_nil m)
  | cons p rest ih =>
    intro n m hch hm
    rcases List.chain_cons.mp hch with ⟨hpn, hrest⟩
    rcases List.mem_cons.mp hm with rfl | hm
    · exact Relation.TransGen.single hpn
    · exact (ih p m hrest hm).tail hpn

theorem adjStep_lt (g : List (List Nat)) {u v : Nat} (h : adjStep g u v) :
    u < g.length := by
  by_contra hc
  rw [adjStep, List.getD_eq_default _ _ (le_of_not_lt hc)] at h
  exact absurd h (List.not_mem_nil v)

/-- On an acyclic in-bounds graph a visit with sufficient fuel always
succeeds: the cycle check can never fire and the fuel never runs out. -/
theorem topoVisit_total (g : List (List Nat))
    (hacyc : ¬ ∃ u, Relation.TransGen (adjStep g) u u)
    (hb : ∀ u v, v ∈ g.getD u [] → v < g.length) :
    ∀ (fuel n : Nat) (order stack : List Nat),
      List.Chain (fun a b => adjStep g b a) n stack →
      n < g.length →
      (Finset.range g.length \ stack.toFinset).card < fuel →
      ∃ o, topoVisit g fuel n order stack = some o := by
  intro fuel
  induction fuel with
  | zero =>
    intro n order stack _ _ hcard
    exact absurd hcard (Nat.not_lt_zero _)
  | succ f ih =>
    intro n order stack hch hn hcard
    rw [topoVisit]
    by_cases ho : n ∈ order
    · rw [if_pos ho]; exact ⟨order, rfl⟩
    · rw [if_neg ho]
      have hs : n ∉ stack := by
        intro hc
        exact hacyc ⟨n, chain_stack_cycle g stack n n hch hc⟩
      rw [if_neg hs]
      have hcard' : (Finset.range g.length \ (n :: stack).toFinset).card < f := by
        have hmem : n ∈ Finset.range g.length \ stack.toFinset := by
          simp only [Finset.mem_sdiff, Finset.mem_range, List.mem_toFinset]
          exact ⟨hn, hs⟩
        have hset : Finset.range g.length \ (n :: stack).toFinset =
            (Finset.range g.length \ stack.toFinset).erase n := by
          ext x
          simp only [Finset.mem_sdiff, Finset.mem_range, List.mem_toFinset,
            List.mem_cons, Finset.mem_erase]
          constructor
          · rintro ⟨h1, h2⟩
            push_neg at h2
            exact ⟨h2.1, h1, h2.2⟩
          · rintro ⟨h1, h2, h3⟩
            push_neg
            exact ⟨h2, h1, h3⟩
        have hpos : 0 < (Finset.range g.length \ stack.toFinset).card :=
          Finset.card_pos.mpr ⟨n, hmem⟩
        rw [hset, Finset.card_erase_of_mem hmem]
        omega
      have harcs : ∀ (cs : List Nat), (∀ c ∈ cs, adjStep g n c) →
          ∀ (order' : List Nat),
          ∃ o, topoArcs (topoVisit g f) cs order' (n :: stack) = some o := by
        intro cs
        induction cs with
        | nil => intro _ order'; exact ⟨order', rfl⟩
        | cons c cs' ihc =>
          intro hcs order'
          rw [topoArcs]
          have hchc : List.Chain (fun a b => adjStep g b a) c (n :: stack) :=
            List.chain_cons.mpr ⟨hcs c (List.mem_cons_self c cs'), hch⟩
          have hclt : c < g.length := hb n c (hcs c (List.mem_cons_self c cs'))
          obtain ⟨o₁, ho₁⟩ := ih c order' (n :: stack) hchc hclt hcard'
          rw [ho₁]
          simp only
          exact ihc (fun d hd => hcs d (List.mem_cons_of_mem c hd)) o₁
      obtain ⟨ok, hok⟩ := harcs (g.getD n []) (fun c hc => hc) order
      rw [hok]
      exact ⟨n :: ok, rfl⟩

theorem topoAll_total (g : List (List Nat))
    (hacyc : ¬ ∃ u, Relation.TransGen (adjStep g) u u)
    (hb : ∀ u v, v ∈ g.getD u [] → v < g.length) :
    ∀ (vs order : List Nat), (∀ v ∈ vs, v < g.length) →
      ∃ o, topoAll g (g.length + 1) vs order = some o := by
  intro vs
  induction vs with
  | nil => intro order _; exact ⟨order, rfl⟩
  | cons v vs' ih =>
    intro order hvs
    rw [topoAll]
    have hcard : (Finset.range g.length \ ([] : List Nat).toFinset).card <
        g.length + 1 := by
      simp
    obtain ⟨o₁, h₁⟩ := topoVisit_total g hacyc hb (g.length + 1) v order []
      List.Chain.nil (hvs v (List.mem_cons_self v vs')) hcard
    rw [h₁]
    simp only
    exact ih o₁ (fun w hw => hvs w (List.mem_cons_of_mem v hw))

theorem mem_flatten_lt (g : List (List Nat))
    (hb : ∀ u v, v ∈ g.getD u [] → v < g.length) :
    ∀ x ∈ g.flatten, x < g.length := by
  intro x hx
  rcases List.mem_flatten.mp hx with ⟨l, hl, hxl⟩
  rcases List.mem_iff_getElem.mp hl with ⟨i, hi, rfl⟩
  exact hb i x (by rwa [List.getD_eq_getElem g [] hi])

/-- C7: topological sort returns an empty ordering whenever the graph has
a cycle; on an acyclic graph it returns an ordering of all nodes in which
the source of every arc appears strictly before its target. -/
theorem topological_spec (g : List (List Nat))
    (hb : ∀ u v, v ∈ g.getD u [] → v < g.length) :
    ((∃ u, Relation.TransGen (adjStep g) u u) → Topological g = []) ∧
    ((¬ ∃ u, Relation.TransGen (adjStep g) u u) →
      (Topological g).Perm (List.range g.length) ∧
      ∀ u v, adjStep g u v →
        ∃ l₁ l₂, Topological g = l₁ ++ u :: l₂ ∧ v ∈ l₂) := by
  constructor
  · rintro ⟨u, hcyc⟩
    cases h : topoAll g (g.length + 1) (List.range g.length) [] with
    | none => rw [Topological, h]
    | some order =>
      exfalso
      obtain ⟨_, hnd, hinv, hall, _⟩ :=
        topoAll_sound g (g.length + 1) (List.range g.length) [] order h
          List.nodup_nil (ordInv_nil g)
      obtain ⟨w, hw⟩ : ∃ w, adjStep g u w := by
        rcases Relation.TransGen.head'_iff.mp hcyc with ⟨c, hc, _⟩
        exact ⟨c, hc⟩
      have hu : u ∈ order := hall u (List.mem_range.mpr (adjStep_lt g hw))
      exact ordInv_no_cycle g order hinv hnd hu hcyc
  · intro hacyc
    obtain ⟨order, horder⟩ := topoAll_total g hacyc hb (List.range g.length) []
      (fun v hv => List.mem_range.mp hv)
    have htop : Topological g = order := by rw [Topological, horder]
    obtain ⟨_, hnd, hinv, hall, hprov⟩ :=
      topoAll_sound g (g.length + 1) (List.range g.length) [] order horder
        List.nodup_nil (ordInv_nil g)
    constructor
    · rw [htop]
      refine (List.perm_ext_iff_of_nodup hnd (List.nodup_range _)).mpr ?_
      intro a
      constructor
      · intro ha
        rcases hprov a ha with h1 | h1 | h1
        · exact absurd h1 (List.not_mem_nil a)
        · exact h1
        · exact List.mem_range.mpr (mem_flatten_lt g hb a h1)
      · intro ha
        exact hall a ha
    · intro u v huv
      have hu : u ∈ order := hall u (List.mem_range.mpr (adjStep_lt g huv))
      rcases List.append_of_mem hu with ⟨l₁, l₂, heq⟩
      exact ⟨l₁, l₂, htop ▸ heq, hinv u l₁ l₂ heq v huv⟩

/-- Witness for C7 on the one-node self-loop: a cyclic graph sorts to the
empty ordering. -/
theorem topological_spec_witness : Topological [[0]] = [] :=
  (topological_spec [[0]]
    (by
      intro u v hv
      match u with
      | 0 =>
        have hv0 : v = 0 := by simpa using hv
        subst hv0
        decide
      | (k+1) =>
        rw [List.getD_eq_default _ _ (by simp)] at hv
        exact absurd hv (List.not_mem_nil v))).1
    ⟨0, Relation.TransGen.single (by simp [adjStep])⟩

/-- Sanity anchor: the ascending-restart postorder model reproduces the
expected output of `ExampleAdjacencyList_Topological`. -/
theorem topological_example :
    Topological [[], [2], [], [1, 2], [3, 2]] = [4, 3, 1, 2, 0] := by decide
